import Mathlib

/-! Markdown structural repair: `preprocessMarkdown` of `content.js`

A shallow embedding of the function `preprocessMarkdown` (src/content.js, lines 75-151)
and of the JavaScript string primitives it calls, followed by the properties of the
repair engine proved over that embedding.

Strings are lists of characters.  Every character the source tests for (white space,
line terminators, digits, `|`, `#`, `-`, `:`, `.`) lies in the Basic Multilingual Plane,
so reading a well-formed JavaScript string as its sequence of code points does not change
any of the tests.
-/

namespace NotebookLM

/-- A JavaScript string. -/
abbrev Str := List Char

/-! ## Character classes -/

/-- ECMAScript `LineTerminator`: the characters the regular-expression `.` does not match. -/
def isLineTerminator (c : Char) : Bool :=
  c = '\n' || c = '\r' || c = '\u2028' || c = '\u2029'

/-- ECMAScript `WhiteSpace` and `LineTerminator`: the characters matched by `\s` and removed
by `String.prototype.trim`. -/
def isWhiteSpace (c : Char) : Bool :=
  c = '\t' || c = '\n' || c = '\x0b' || c = '\x0c' || c = '\r' || c = ' ' ||
  c = '\u00a0' || c = '\u1680' || (0x2000 ≤ c.toNat && c.toNat ≤ 0x200a) ||
  c = '\u2028' || c = '\u2029' || c = '\u202f' || c = '\u205f' || c = '\u3000' ||
  c = '\ufeff'

/-- The class `\d`: the ASCII digits. -/
def isDigit (c : Char) : Bool :=
  48 ≤ c.toNat && c.toNat ≤ 57

/-! ## String primitives -/

/-- `s.trim()`: white space and line terminators removed from both ends. -/
def trim (s : Str) : Str :=
  ((s.dropWhile isWhiteSpace).reverse.dropWhile isWhiteSpace).reverse

/-- `s.split('\n')`: the pieces between the newlines; the empty string gives one empty piece. -/
def split : Str → List Str
  | [] => [[]]
  | c :: cs => if c = '\n' then [] :: split cs else (split cs).modifyHead (c :: ·)

/-- `parts.join('\n')`. -/
def join : List Str → Str
  | [] => []
  | [a] => a
  | a :: b :: rest => a ++ '\n' :: join (b :: rest)

/-- `s.startsWith(c)` for a one-character string `c`. -/
def startsWith (s : Str) (c : Char) : Bool :=
  match s with
  | [] => false
  | d :: _ => d = c

/-- `s.includes(pat)`: `pat` occurs in `s` as a contiguous substring. -/
def includes : Str → Str → Bool
  | [], pat => pat.isEmpty
  | c :: cs, pat => pat.isPrefixOf (c :: cs) || includes cs pat

/-- `s.indexOf(c)` for a one-character string `c`: the first position of `c`, or `-1`. -/
def indexOf : Str → Char → Int
  | [], _ => -1
  | d :: ds, c => if d = c then 0 else
      let r := indexOf ds c
      if r < 0 then -1 else r + 1

/-- `s.substring(0, n)` for `0 ≤ n`. -/
def substringTo (s : Str) (n : Int) : Str := s.take n.toNat

/-- `s.substring(n)` for `0 ≤ n`. -/
def substringFrom (s : Str) (n : Int) : Str := s.drop n.toNat

/-! ## The two regular expressions -/

/-- The match of `/^(\d+)\.(\d+)\s+(.+)$/` against `s`: the three captured groups, or `none`.
The digit groups are forced (a digit is neither `.` nor white space).  The greedy `\s+` first
takes the whole white-space run and gives characters back, one at a time and never its first,
until the rest of the string is a non-empty run of characters other than line terminators. -/
def titleAfterSpaces : Nat → Str → Str → Option Str
  | 0, _, _ => none
  | k + 1, ws, r =>
      let title := ws.drop (k + 1) ++ r
      if title ≠ [] ∧ title.all (fun c => !isLineTerminator c) then some title
      else titleAfterSpaces k ws r

/-- The three groups of `line.match(/^(\d+)\.(\d+)\s+(.+)$/)`, or `none` when there is
no match. -/
def headerMatch (s : Str) : Option (Str × Str × Str) :=
  let major := s.takeWhile isDigit
  match s.dropWhile isDigit with
  | '.' :: s1 =>
      let minor := s1.takeWhile isDigit
      let s2 := s1.dropWhile isDigit
      let ws := s2.takeWhile isWhiteSpace
      let r := s2.dropWhile isWhiteSpace
      if major ≠ [] ∧ minor ≠ [] then
        (titleAfterSpaces ws.length ws r).map (fun title => (major, minor, title))
      else none
  | _ => none

/-- The length of the match of `\s+\|` at the start of `s`, if there is one: the greedy `\s+`
takes the whole white-space run, which must be non-empty and followed by a pipe (giving
characters back cannot help, white space is not a pipe). -/
def rowBreakLength (s : Str) : Option Nat :=
  let ws := s.takeWhile isWhiteSpace
  match s.dropWhile isWhiteSpace with
  | '|' :: _ => if ws ≠ [] then some (ws.length + 1) else none
  | _ => none

/-- The scan of `line.replace(/\|\s+\|/g, '|\n|')`: `skip` counts the characters of the
current match still to be passed over; outside a match, a pipe at which the pattern matches
is replaced together with the match, every other character is copied, and the search
resumes after the match. -/
def replaceRowBreaksFrom : Nat → Str → Str
  | _, [] => []
  | skip + 1, _ :: cs => replaceRowBreaksFrom skip cs
  | 0, c :: cs =>
      if c = '|' then
        match rowBreakLength cs with
        | some n => '|' :: '\n' :: '|' :: replaceRowBreaksFrom n cs
        | none => c :: replaceRowBreaksFrom 0 cs
      else c :: replaceRowBreaksFrom 0 cs

/-- `line.replace(/\|\s+\|/g, '|\n|')`. -/
def replaceRowBreaks (line : Str) : Str := replaceRowBreaksFrom 0 line

/-! ## The repair engine -/

/-- The argument of `preprocessMarkdown`: a string, or an absent value. -/
inductive Markdown where
  | null
  | undefined
  | string (s : Str)
  deriving DecidableEq, Repr

/-- Lines 88-90: the first non-empty line gets `# ` unless it starts with `#`. -/
def promoteTitle (line : Str) : Str :=
  if !startsWith line '#' then '#' :: ' ' :: line else line

/-- Lines 102-113: a line matching the numbered-heading pattern is rewritten as a heading. -/
def fixHeader (line : Str) : Str :=
  match headerMatch line with
  | some (major, minor, title) =>
      if minor = ['0'] then
        ['#', '#', ' '] ++ major ++ ['.'] ++ minor ++ [' '] ++ title
      else
        ['#', '#', '#', ' '] ++ major ++ ['.'] ++ minor ++ [' '] ++ title
  | none => line

/-- Line 118: the condition under which a line is treated as a collapsed table. -/
def isTableFragment (line : Str) : Bool :=
  includes line ['|'] && (includes line ['-', '-', '-'] || includes line [':', '-', '-'])

/-- Lines 129-140: the first line of the block, with a caption before its first pipe moved
to a paragraph of its own. -/
def splitCaption (first : Str) : Str :=
  if !startsWith (trim first) '|' then
    let firstPipeIdx := indexOf first '|'
    if firstPipeIdx > 0 then
      let caption := trim (substringTo first firstPipeIdx)
      let rest := substringFrom first firstPipeIdx
      caption ++ ['\n', '\n'] ++ rest
    else first
  else first

/-- Lines 123-143: the fragment pushed for a line that is treated as a collapsed table. -/
def fixTable (line : Str) : Str :=
  let expandedBlock := replaceRowBreaks line
  let blockLines := split expandedBlock
  match blockLines with
  | [] => join blockLines
  | first :: others => join (splitCaption first :: others)

/-- Lines 96-147: what is pushed for a trimmed line that is not taken as the title. -/
def processBody (line : Str) : Str :=
  let line := fixHeader line
  if isTableFragment line then fixTable line else line

/-- One iteration of the loop of lines 82-148 on the raw line `raw`: the new value of
`titleFound` and the fragment pushed onto `processedLines`. -/
def processLine (titleFound : Bool) (raw : Str) : Bool × Str :=
  let line := trim raw
  if !titleFound && line.length > 0 then (true, promoteTitle line)
  else (titleFound, processBody line)

/-- The loop of lines 82-148: the fragments pushed for `lines`, in order. -/
def processLines : Bool → List Str → List Str
  | _, [] => []
  | titleFound, raw :: rest =>
      (processLine titleFound raw).2 :: processLines (processLine titleFound raw).1 rest

/-- The function `preprocessMarkdown` of src/content.js.  Line 76 returns the empty string
for a falsy argument; `null`, `undefined` and the empty string are the falsy values of the
argument type. -/
def preprocessMarkdown : Markdown → Str
  | .null => []
  | .undefined => []
  | .string s => if s.isEmpty then [] else join (processLines false (split s))

/-! ## Vocabulary of the properties -/

/-- The line neither starts nor ends with a white-space character. -/
def Clean (l : Str) : Prop :=
  (∀ c, l.head? = some c → isWhiteSpace c = false) ∧
  (∀ c, l.getLast? = some c → isWhiteSpace c = false)

/-- The first newline-delimited line of `text` that is not empty, if there is one. -/
def firstNonEmptyLine (text : Str) : Option Str :=
  (split text).find? (fun l => !l.isEmpty)

/-- The value of `titleFound` when the loop reaches line `j`, having started from `b`:
some earlier line has a non-empty trimmed form. -/
def titleFoundBefore (b : Bool) (lines : List Str) (j : Nat) : Bool :=
  b || (lines.take j).any (fun l => !(trim l).isEmpty)

/-- The string is matched by `^(\d+)\.(\d+)\s+(.+)$`: it is a non-empty run of digits, a dot,
a non-empty run of digits, a non-empty run of white space and a non-empty run of characters
other than line terminators. -/
def MatchesHeading (s : Str) : Prop :=
  ∃ major minor sp title, s = major ++ '.' :: (minor ++ (sp ++ title)) ∧
    major ≠ [] ∧ (∀ c ∈ major, isDigit c = true) ∧
    minor ≠ [] ∧ (∀ c ∈ minor, isDigit c = true) ∧
    sp ≠ [] ∧ (∀ c ∈ sp, isWhiteSpace c = true) ∧
    title ≠ [] ∧ (∀ c ∈ title, isLineTerminator c = false)

/-- The pattern `\|\s+\|` matches at the very start of `t`. -/
def rowBreakAt (t : Str) : Bool :=
  match t with
  | '|' :: r => (rowBreakLength r).isSome
  | _ => false

/-- The pattern `\|\s+\|` matches somewhere in `l`. -/
def containsRowBreak (l : Str) : Bool :=
  l.tails.any rowBreakAt

/-- What the pieces `p0 :: ps` of the row-broken form of the line `s` satisfy: the first is a
start of `s` without any match of the pattern, the others start with a pipe and have no match
after their first character, and every piece ends with a pipe or where `s` ends. -/
def RowPieces (s p0 : Str) (ps : List Str) : Prop :=
  p0 <+: s ∧ (s ≠ [] → p0 ≠ []) ∧
  (∀ t, t <:+ p0 → rowBreakAt t = false) ∧
  (∀ p ∈ ps, startsWith p '|' = true) ∧
  (∀ p ∈ ps, ∀ a t, p = a ++ t → a ≠ [] → rowBreakAt t = false) ∧
  (∀ p ∈ p0 :: ps, p.getLast? = some '|' ∨ p.getLast? = s.getLast?)

/-! ## Sample documents -/

/-- The document of the end-to-end scenario. -/
def quarterlyReport : Str :=
  ("Quarterly Report\n1.0 Overview\nSome text.\n1.1 Details\n" ++
    "Caption here | Col1 | Col2 | | :--- | :--- | | v1 | v2").toList

/-- A title line followed by the line of the caption-separation scenario. -/
def resultsTable : Str :=
  "Results\nTable 1: Results | A | B | | :--- | :--- |".toList

/-- A document whose first non-empty line, after two blank lines, matches the numbered-heading
pattern and holds a pipe and a separator marker. -/
def numberedTitle : Str :=
  "\n  \n 1.0 Plan | --- |\n# Notes\n2.10 Scope".toList

/-- A line in which two matches of the row-break pattern share a pipe. -/
def overlappingRows : Str := "a | | | --- |".toList

/-- A line that matches the numbered-heading pattern and holds a pipe and a separator
marker. -/
def headingWithTable : Str := "1.0 A | B | --- |".toList

end NotebookLM

namespace NotebookLM

/-! ## Splitting and joining -/

theorem split_ne_nil (s : Str) : split s ≠ [] := by
  induction s with
  | nil => simp [split]
  | cons c cs ih =>
    unfold split
    split_ifs
    · simp
    · cases h : split cs with
      | nil => exact absurd h ih
      | cons a l => simp [List.modifyHead]

theorem modifyHead_append_of_ne_nil {α : Type} (f : α → α) (l₁ l₂ : List α) (h : l₁ ≠ []) :
    (l₁ ++ l₂).modifyHead f = l₁.modifyHead f ++ l₂ := by
  cases l₁ with
  | nil => exact absurd rfl h
  | cons a l => simp [List.modifyHead]

theorem split_append_newline (a b : Str) : split (a ++ '\n' :: b) = split a ++ split b := by
  induction a with
  | nil => simp [split]
  | cons c cs ih =>
    by_cases hc : c = '\n'
    · simp [split, hc, ih]
    · have h1 : split (c :: (cs ++ '\n' :: b)) =
          (split (cs ++ '\n' :: b)).modifyHead (c :: ·) := by simp [split, hc]
      have h2 : split (c :: cs) = (split cs).modifyHead (c :: ·) := by simp [split, hc]
      rw [List.cons_append, h1, ih, h2, modifyHead_append_of_ne_nil _ _ _ (split_ne_nil cs)]

theorem split_of_not_mem (s : Str) (h : '\n' ∉ s) : split s = [s] := by
  induction s with
  | nil => rfl
  | cons c cs ih =>
    have hc : c ≠ '\n' := fun e => h (by simp [e])
    have hcs : '\n' ∉ cs := fun e => h (List.mem_cons_of_mem _ e)
    simp [split, hc, ih hcs, List.modifyHead]

theorem not_mem_of_mem_split (s : Str) : ∀ l ∈ split s, '\n' ∉ l := by
  induction s with
  | nil => simp [split]
  | cons c cs ih =>
    intro l hl
    by_cases hc : c = '\n'
    · simp only [split, hc, if_true, List.mem_cons] at hl
      rcases hl with rfl | hl
      · simp
      · exact ih l hl
    · simp only [split, hc, if_false] at hl
      cases h : split cs with
      | nil => exact absurd h (split_ne_nil cs)
      | cons a r =>
        rw [h] at hl ih
        simp only [List.modifyHead, List.mem_cons] at hl
        rcases hl with rfl | hl
        · intro hm
          rcases List.mem_cons.mp hm with e | e
          · exact hc e.symm
          · exact ih a (by simp) e
        · exact ih l (by simp [hl])

theorem join_split (s : Str) : join (split s) = s := by
  induction s with
  | nil => rfl
  | cons c cs ih =>
    by_cases hc : c = '\n'
    · simp only [split, hc, if_true]
      cases h : split cs with
      | nil => exact absurd h (split_ne_nil cs)
      | cons a r => rw [h] at ih; simp [join, ih]
    · simp only [split, hc, if_false]
      cases h : split cs with
      | nil => exact absurd h (split_ne_nil cs)
      | cons a r =>
        rw [h] at ih
        cases r with
        | nil => simpa [join, List.modifyHead] using ih
        | cons b r => simp only [List.modifyHead, join] at ih ⊢; simp [ih]

theorem join_cons_cons (a b : Str) (rest : List Str) :
    join (a :: b :: rest) = a ++ '\n' :: join (b :: rest) := rfl

theorem join_cons_of_ne_nil (a : Str) (rest : List Str) (h : rest ≠ []) :
    join (a :: rest) = a ++ '\n' :: join rest := by
  cases rest with
  | nil => exact absurd rfl h
  | cons b r => rfl

theorem join_append_cons (a b : Str) (rest : List Str) :
    join ((a ++ b) :: rest) = a ++ join (b :: rest) := by
  cases rest with
  | nil => simp [join]
  | cons c r => simp [join]

theorem split_join_cons (a : Str) (rest : List Str) (h : rest ≠ []) :
    split (join (a :: rest)) = split a ++ split (join rest) := by
  rw [join_cons_of_ne_nil a rest h, split_append_newline]

theorem mem_split_join (frags : List Str) (p : Str) (hp : p ∈ split (join frags)) :
    frags = [] ∨ ∃ f ∈ frags, p ∈ split f := by
  induction frags with
  | nil => exact Or.inl rfl
  | cons a rest ih =>
    right
    by_cases h : rest = []
    · subst h
      exact ⟨a, by simp, by simpa [join] using hp⟩
    · rw [split_join_cons a rest h, List.mem_append] at hp
      rcases hp with hp | hp
      · exact ⟨a, by simp, hp⟩
      · rcases ih hp with e | ⟨f, hf, hpf⟩
        · exact absurd e h
        · exact ⟨f, List.mem_cons_of_mem _ hf, hpf⟩

/-! ## Trimming -/

theorem trim_eq_rdropWhile (s : Str) :
    trim s = (s.dropWhile isWhiteSpace).rdropWhile isWhiteSpace := rfl

theorem trim_prefix_dropWhile (s : Str) : trim s <+: s.dropWhile isWhiteSpace := by
  rw [trim_eq_rdropWhile]; exact List.rdropWhile_prefix _ _

theorem head_dropWhile_isWhiteSpace (s : Str) (c : Char) (r : Str)
    (h : s.dropWhile isWhiteSpace = c :: r) : isWhiteSpace c = false := by
  have := List.head?_dropWhile_not isWhiteSpace s
  rw [h] at this
  simpa using this

theorem trim_clean (s : Str) : Clean (trim s) := by
  constructor
  · intro c hc
    obtain ⟨t, ht⟩ := trim_prefix_dropWhile s
    cases hts : trim s with
    | nil => rw [hts] at hc; simp at hc
    | cons d r =>
      rw [hts] at hc ht
      simp only [List.head?_cons, Option.some.injEq] at hc
      subst hc
      exact head_dropWhile_isWhiteSpace s d (r ++ t) (by simpa using ht.symm)
  · intro c hc
    rw [trim_eq_rdropWhile] at hc
    by_cases hn : (s.dropWhile isWhiteSpace).rdropWhile isWhiteSpace = []
    · rw [hn] at hc; simp at hc
    · have := List.rdropWhile_last_not isWhiteSpace (s.dropWhile isWhiteSpace) hn
      rw [List.getLast?_eq_getLast _ hn] at hc
      simp only [Option.some.injEq] at hc
      rw [← hc]
      simpa using this

theorem trim_eq_self (s : Str) (h : Clean s) : trim s = s := by
  have h1 : s.dropWhile isWhiteSpace = s := by
    cases s with
    | nil => rfl
    | cons c r =>
      have := h.1 c rfl
      simp [List.dropWhile, this]
  rw [trim_eq_rdropWhile, h1, List.rdropWhile_eq_self_iff]
  intro hl
  have := h.2 (s.getLast hl) (List.getLast?_eq_getLast _ hl)
  simp [this]

theorem trim_trim (s : Str) : trim (trim s) = trim s := trim_eq_self _ (trim_clean s)

theorem trim_nil : trim [] = [] := rfl

theorem trim_isInfix (s : Str) : trim s <:+: s :=
  (trim_prefix_dropWhile s).isInfix.trans (List.dropWhile_suffix _).isInfix

theorem mem_of_mem_trim (s : Str) (c : Char) (h : c ∈ trim s) : c ∈ s :=
  (trim_isInfix s).subset h

/-- A string that does not start with white space keeps its start under `trim`. -/
theorem trim_prefix_of_head (s : Str) (h : ∀ c, s.head? = some c → isWhiteSpace c = false) :
    trim s <+: s ∧ (s ≠ [] → trim s ≠ []) ∧ (trim s).head? = s.head? := by
  have h1 : s.dropWhile isWhiteSpace = s := by
    cases s with
    | nil => rfl
    | cons c r =>
      have := h c rfl
      simp [List.dropWhile, this]
  have hp : trim s <+: s := by simpa [h1] using trim_prefix_dropWhile s
  cases s with
  | nil => simp [trim_nil]
  | cons c r =>
    have hc := h c rfl
    have hne : trim (c :: r) ≠ [] := by
      rw [trim_eq_rdropWhile, h1]
      intro e
      rw [List.rdropWhile_eq_nil_iff] at e
      have := e c (by simp)
      simp [hc] at this
    refine ⟨hp, fun _ => hne, ?_⟩
    obtain ⟨t, ht⟩ := hp
    cases hts : trim (c :: r) with
    | nil => exact absurd hts hne
    | cons d r2 =>
      rw [hts] at ht
      simp only [List.cons_append, List.cons.injEq] at ht
      simp [ht.1]

theorem clean_nil : Clean [] := by
  constructor <;> intro c hc <;> simp at hc

/-! ## The loop -/

theorem processBody_nil : processBody [] = [] := by decide

theorem processLine_fst (b : Bool) (raw : Str) :
    (processLine b raw).1 = (b || !(trim raw).isEmpty) := by
  unfold processLine
  cases b <;> cases h : trim raw <;> simp

theorem processLine_true (raw : Str) :
    (processLine true raw).2 = processBody (trim raw) := by
  simp [processLine]

theorem processLine_blank (b : Bool) (raw : Str) (h : trim raw = []) :
    (processLine b raw).2 = [] := by
  simp [processLine, h, processBody_nil]

theorem processLine_title (raw : Str) (h : trim raw ≠ []) :
    (processLine false raw).2 = promoteTitle (trim raw) := by
  have : 0 < (trim raw).length := List.length_pos.mpr h
  simp [processLine, this]

theorem processLines_length (b : Bool) (lines : List Str) :
    (processLines b lines).length = lines.length := by
  induction lines generalizing b with
  | nil => rfl
  | cons raw rest ih => simp [processLines, ih]

theorem processLines_getElem? (b : Bool) (lines : List Str) (j : Nat) :
    (processLines b lines)[j]? =
      (lines[j]?).map (fun raw => (processLine (titleFoundBefore b lines j) raw).2) := by
  induction lines generalizing b j with
  | nil => simp [processLines]
  | cons raw rest ih =>
    cases j with
    | zero => simp [processLines, titleFoundBefore]
    | succ j =>
      simp only [processLines, List.getElem?_cons_succ, ih, processLine_fst]
      congr 2
      funext r
      simp [titleFoundBefore, Bool.or_assoc]

theorem titleFoundBefore_of_exists (lines : List Str) (j : Nat)
    (h : ∃ i, i < j ∧ trim (lines.getD i []) ≠ []) : titleFoundBefore false lines j = true := by
  obtain ⟨i, hij, hi⟩ := h
  have hlen : i < lines.length := by
    by_contra hn
    rw [List.getD_eq_default _ _ (not_lt.mp hn)] at hi
    exact hi rfl
  simp only [titleFoundBefore, Bool.false_or, List.any_eq_true]
  refine ⟨lines[i], ?_, ?_⟩
  · rw [List.mem_iff_getElem]
    refine ⟨i, by simp [hij, hlen], ?_⟩
    simp
  · rw [List.getD_eq_getElem _ _ hlen] at hi
    simpa using hi

theorem titleFoundBefore_of_blank (lines : List Str) (k : Nat)
    (h : ∀ i, i < k → trim (lines.getD i []) = []) : titleFoundBefore false lines k = false := by
  simp only [titleFoundBefore, Bool.false_or]
  rw [Bool.eq_false_iff]
  intro hany
  rw [List.any_eq_true] at hany
  obtain ⟨l, hl, hne⟩ := hany
  rw [List.mem_iff_getElem] at hl
  obtain ⟨i, hi, rfl⟩ := hl
  simp only [List.length_take, lt_min_iff] at hi
  have := h i hi.1
  rw [List.getD_eq_getElem _ _ hi.2] at this
  simp [this] at hne

/-- The fragment pushed for a line that comes after a line with a non-empty trimmed form. -/
theorem fragment_after_title (lines : List Str) (j : Nat) (hj : j < lines.length)
    (h : ∃ i, i < j ∧ trim (lines.getD i []) ≠ []) :
    (processLines false lines)[j]? = some (processBody (trim (lines.getD j []))) := by
  rw [processLines_getElem?, titleFoundBefore_of_exists lines j h,
    List.getElem?_eq_getElem hj, List.getD_eq_getElem _ _ hj]
  simp [processLine_true]

/-- The fragment pushed for a line whose trimmed form is empty. -/
theorem fragment_blank (lines : List Str) (j : Nat) (hj : j < lines.length)
    (h : trim (lines.getD j []) = []) :
    (processLines false lines)[j]? = some [] := by
  rw [List.getD_eq_getElem _ _ hj] at h
  rw [processLines_getElem?, List.getElem?_eq_getElem hj]
  simp [processLine_blank _ _ h]

/-- The fragment pushed for the first line with a non-empty trimmed form. -/
theorem fragment_title (lines : List Str) (k : Nat)
    (hblank : ∀ i, i < k → trim (lines.getD i []) = [])
    (hne : trim (lines.getD k []) ≠ []) :
    (processLines false lines)[k]? = some (promoteTitle (trim (lines.getD k []))) := by
  have hk : k < lines.length := by
    by_contra hn
    rw [List.getD_eq_default _ _ (not_lt.mp hn)] at hne
    exact hne rfl
  rw [List.getD_eq_getElem _ _ hk] at hne ⊢
  rw [processLines_getElem?, titleFoundBefore_of_blank lines k hblank,
    List.getElem?_eq_getElem hk]
  simp [processLine_title _ hne]

/-! ## Character classes are disjoint -/

theorem isDigit_of_isWhiteSpace (c : Char) (h : isWhiteSpace c = true) : isDigit c = false := by
  simp only [isWhiteSpace, Bool.or_eq_true, decide_eq_true_eq, Bool.and_eq_true] at h
  rcases h with ((((((((((((((h | h) | h) | h) | h) | h) | h) | h) | h) | h) | h) | h) | h) | h) | h)
  all_goals first
    | (subst h; decide)
    | (simp [isDigit]; omega)

theorem not_special_of_isWhiteSpace (c : Char) (h : isWhiteSpace c = true) :
    c ≠ '|' ∧ c ≠ '-' ∧ c ≠ ':' ∧ c ≠ '#' ∧ c ≠ '.' := by
  refine ⟨?_, ?_, ?_, ?_, ?_⟩ <;> (intro e; subst e; revert h; decide)

theorem not_special_of_isDigit (c : Char) (h : isDigit c = true) :
    c ≠ '|' ∧ c ≠ '-' ∧ c ≠ ':' ∧ c ≠ '#' ∧ c ≠ '.' ∧ c ≠ '\n' := by
  refine ⟨?_, ?_, ?_, ?_, ?_, ?_⟩ <;> (intro e; subst e; revert h; decide)

theorem isWhiteSpace_of_isLineTerminator (c : Char) (h : isLineTerminator c = true) :
    isWhiteSpace c = true := by
  simp only [isLineTerminator, Bool.or_eq_true, decide_eq_true_eq] at h
  rcases h with ((h | h) | h) | h <;> (subst h; decide)

/-! ## Prefix scans -/

theorem takeWhile_append_cons {p : Char → Bool} (a : Str) (x : Char) (b : Str)
    (ha : ∀ c ∈ a, p c = true) (hx : p x = false) :
    (a ++ x :: b).takeWhile p = a ∧ (a ++ x :: b).dropWhile p = x :: b := by
  induction a with
  | nil => simp [List.takeWhile, List.dropWhile, hx]
  | cons c cs ih =>
    have hc := ha c (by simp)
    have := ih (fun d hd => ha d (List.mem_cons_of_mem _ hd))
    simp [List.takeWhile, List.dropWhile, hc, this]

theorem takeWhile_eq_self {p : Char → Bool} (a : Str) (ha : ∀ c ∈ a, p c = true) :
    a.takeWhile p = a ∧ a.dropWhile p = [] := by
  induction a with
  | nil => simp
  | cons c cs ih =>
    have hc := ha c (by simp)
    have := ih (fun d hd => ha d (List.mem_cons_of_mem _ hd))
    simp [List.takeWhile, List.dropWhile, hc, this]

theorem mem_takeWhile_imp {p : Char → Bool} (s : Str) (c : Char) (h : c ∈ s.takeWhile p) :
    p c = true := by
  induction s with
  | nil => simp at h
  | cons d ds ih =>
    by_cases hd : p d = true
    · simp only [List.takeWhile, hd, List.mem_cons] at h
      rcases h with rfl | h
      · exact hd
      · exact ih h
    · simp [List.takeWhile, hd] at h

/-! ## The numbered-heading pattern -/

theorem titleAfterSpaces_some (n : Nat) (ws r title : Str)
    (h : titleAfterSpaces n ws r = some title) :
    ∃ k, 1 ≤ k ∧ k ≤ n ∧ title = ws.drop k ++ r ∧ title ≠ [] ∧
      ∀ c ∈ title, isLineTerminator c = false := by
  induction n with
  | zero => simp [titleAfterSpaces] at h
  | succ k ih =>
    simp only [titleAfterSpaces] at h
    split_ifs at h with hg
    · simp only [Option.some.injEq] at h
      subst h
      refine ⟨k + 1, by omega, le_refl _, rfl, hg.1, ?_⟩
      intro c hc
      have := hg.2
      rw [List.all_eq_true] at this
      simpa using this c hc
    · obtain ⟨k', h1, h2, h3⟩ := ih h
      exact ⟨k', h1, by omega, h3⟩

/-- Soundness of the matcher: a match splits the string as digits, a dot, digits, a non-empty
white-space run and a non-empty title without line terminators. -/
theorem headerMatch_some (s major minor title : Str)
    (h : headerMatch s = some (major, minor, title)) :
    ∃ sp, s = major ++ '.' :: minor ++ sp ++ title ∧
      major ≠ [] ∧ (∀ c ∈ major, isDigit c = true) ∧
      minor ≠ [] ∧ (∀ c ∈ minor, isDigit c = true) ∧
      sp ≠ [] ∧ (∀ c ∈ sp, isWhiteSpace c = true) ∧
      title ≠ [] ∧ (∀ c ∈ title, isLineTerminator c = false) := by
  unfold headerMatch at h
  have hs := List.takeWhile_append_dropWhile isDigit s
  split at h
  next s1 hd =>
    have hs1 := List.takeWhile_append_dropWhile isDigit s1
    have hs2 := List.takeWhile_append_dropWhile isWhiteSpace (s1.dropWhile isDigit)
    simp only at h
    split_ifs at h with hne
    rw [Option.map_eq_some'] at h
    obtain ⟨t, ht, heq⟩ := h
    simp only [Prod.mk.injEq] at heq
    obtain ⟨hmaj, hmin, htitle⟩ := heq
    subst htitle
    obtain ⟨k, hk1, hk2, htk, htne, hlt⟩ := titleAfterSpaces_some _ _ _ _ ht
    set ws := (s1.dropWhile isDigit).takeWhile isWhiteSpace with hws
    refine ⟨ws.take k, ?_, ?_, ?_, ?_, ?_, ?_, ?_, htne, hlt⟩
    · rw [htk, ← hmaj, ← hmin]
      have e1 : ws.take k ++ (ws.drop k ++ (s1.dropWhile isDigit).dropWhile isWhiteSpace)
          = s1.dropWhile isDigit := by
        rw [← List.append_assoc, List.take_append_drop, hs2]
      rw [List.append_assoc, e1]
      simp only [List.append_assoc, List.cons_append, hs1]
      rw [← hd, hs]
    · rw [← hmaj]; exact hne.1
    · rw [← hmaj]; exact fun c hc => mem_takeWhile_imp _ _ hc
    · rw [← hmin]; exact hne.2
    · rw [← hmin]; exact fun c hc => mem_takeWhile_imp _ _ hc
    · intro e
      have hlen : (ws.take k).length = 0 := by rw [e]; rfl
      rw [List.length_take] at hlen
      omega
    · intro c hc
      exact mem_takeWhile_imp _ _ (List.mem_of_mem_take hc)
  next => simp at h

theorem titleAfterSpaces_none (n : Nat) (ws r : Str) (h : titleAfterSpaces n ws r = none) :
    ∀ k, 1 ≤ k → k ≤ n →
      ¬ (ws.drop k ++ r ≠ [] ∧ (ws.drop k ++ r).all (fun c => !isLineTerminator c) = true) := by
  induction n with
  | zero => intro k h1 h2; omega
  | succ n ih =>
    simp only [titleAfterSpaces] at h
    split_ifs at h with hg
    intro k h1 h2
    rcases Nat.lt_or_eq_of_le h2 with hlt | heq
    · exact ih h k h1 (by omega)
    · rw [heq]; exact hg

theorem takeWhile_append_of_head {p : Char → Bool} (a b : Str)
    (ha : ∀ c ∈ a, p c = true) (hb : ∀ c, b.head? = some c → p c = false) :
    (a ++ b).takeWhile p = a ∧ (a ++ b).dropWhile p = b := by
  cases b with
  | nil => simpa using takeWhile_eq_self a ha
  | cons x xs => exact takeWhile_append_cons a x xs ha (hb x rfl)

theorem headerMatch_append (major s1 : Str) (hmajd : ∀ c ∈ major, isDigit c = true) :
    headerMatch (major ++ '.' :: s1) =
      if major ≠ [] ∧ s1.takeWhile isDigit ≠ [] then
        (titleAfterSpaces ((s1.dropWhile isDigit).takeWhile isWhiteSpace).length
          ((s1.dropWhile isDigit).takeWhile isWhiteSpace)
          ((s1.dropWhile isDigit).dropWhile isWhiteSpace)).map
          (fun title => (major, s1.takeWhile isDigit, title))
      else none := by
  have h1 := takeWhile_append_cons major '.' s1 hmajd (by decide)
  simp only [headerMatch, h1.1, h1.2]

theorem head_append_isWhiteSpace (sp title : Str) (hsp : sp ≠ [])
    (hspw : ∀ c ∈ sp, isWhiteSpace c = true) :
    ∀ c, (sp ++ title).head? = some c → isDigit c = false := by
  intro c hc
  cases sp with
  | nil => exact absurd rfl hsp
  | cons w sp' =>
    simp only [List.cons_append, List.head?_cons, Option.some.injEq] at hc
    subst hc
    exact isDigit_of_isWhiteSpace _ (hspw _ (by simp))

/-- Completeness of the matcher: a string of the shape of the pattern whose title does not
start with white space is matched with exactly these groups. -/
theorem headerMatch_of_shape (major minor sp title : Str)
    (hmaj : major ≠ []) (hmajd : ∀ c ∈ major, isDigit c = true)
    (hmin : minor ≠ []) (hmind : ∀ c ∈ minor, isDigit c = true)
    (hsp : sp ≠ []) (hspw : ∀ c ∈ sp, isWhiteSpace c = true)
    (ht : title ≠ []) (htl : ∀ c ∈ title, isLineTerminator c = false)
    (hth : ∀ c, title.head? = some c → isWhiteSpace c = false) :
    headerMatch (major ++ '.' :: (minor ++ (sp ++ title))) = some (major, minor, title) := by
  have h2 := takeWhile_append_of_head minor (sp ++ title) hmind
    (head_append_isWhiteSpace sp title hsp hspw)
  have h3 := takeWhile_append_of_head sp title hspw hth
  have hall : title.all (fun c => !isLineTerminator c) = true := by
    rw [List.all_eq_true]
    intro c hc
    simp [htl c hc]
  rw [headerMatch_append major _ hmajd, h2.1, h2.2, h3.1, h3.2, if_pos ⟨hmaj, hmin⟩]
  obtain ⟨w, sp', rfl⟩ := List.exists_cons_of_ne_nil hsp
  simp [titleAfterSpaces, ht, hall]

/-- The matcher finds a match exactly when the string has the shape of the pattern. -/
theorem headerMatch_isSome_iff (s : Str) : (headerMatch s).isSome = true ↔ MatchesHeading s := by
  constructor
  · intro h
    obtain ⟨g, hg⟩ := Option.isSome_iff_exists.mp h
    obtain ⟨major, minor, title⟩ := g
    obtain ⟨sp, hs, h1, h2, h3, h4, h5, h6, h7, h8⟩ := headerMatch_some s major minor title hg
    exact ⟨major, minor, sp, title, by rw [hs]; simp, h1, h2, h3, h4, h5, h6, h7, h8⟩
  · rintro ⟨major, minor, sp, title, rfl, hmaj, hmajd, hmin, hmind, hsp, hspw, ht, htl⟩
    have h2 := takeWhile_append_of_head minor (sp ++ title) hmind
      (head_append_isWhiteSpace sp title hsp hspw)
    have h3a : (sp ++ title).takeWhile isWhiteSpace = sp ++ title.takeWhile isWhiteSpace :=
      List.takeWhile_append_of_pos hspw
    have h3b : (sp ++ title).dropWhile isWhiteSpace = title.dropWhile isWhiteSpace :=
      List.dropWhile_append_of_pos hspw
    have hsplit := List.takeWhile_append_dropWhile isWhiteSpace title
    cases hm : headerMatch (major ++ '.' :: (minor ++ (sp ++ title))) with
    | some g => rfl
    | none =>
      exfalso
      rw [headerMatch_append major _ hmajd, h2.1, h2.2, h3a, h3b, if_pos ⟨hmaj, hmin⟩,
        Option.map_eq_none'] at hm
      have hlen : 1 ≤ sp.length := List.length_pos.mpr hsp
      refine titleAfterSpaces_none _ _ _ hm sp.length hlen (by simp) ⟨?_, ?_⟩
      · rw [List.drop_left, hsplit]; exact ht
      · rw [List.drop_left, hsplit, List.all_eq_true]
        intro c hc
        simp [htl c hc]

/-! ## Substring search -/

theorem includes_iff (s pat : Str) : includes s pat = true ↔ pat <:+: s := by
  induction s with
  | nil => simp [includes]
  | cons c cs ih =>
    simp only [includes, Bool.or_eq_true, List.isPrefixOf_iff_prefix, ih]
    exact List.infix_cons_iff.symm

theorem infix_append_left (a b pat : Str) (hpat : pat ≠ []) (h : ∀ c ∈ a, c ∉ pat) :
    pat <:+: a ++ b ↔ pat <:+: b := by
  induction a with
  | nil => simp
  | cons c cs ih =>
    rw [List.cons_append, List.infix_cons_iff, ih (fun d hd => h d (List.mem_cons_of_mem _ hd))]
    constructor
    · rintro (hp | hi)
      · exfalso
        cases pat with
        | nil => exact hpat rfl
        | cons x xs =>
          obtain ⟨t, ht⟩ := hp
          simp only [List.cons_append, List.cons.injEq] at ht
          exact h c (by simp) (by simp [ht.1])
      · exact hi
    · exact Or.inr

theorem infix_append_right (a b pat : Str) (hpat : pat ≠ []) (h : ∀ c ∈ b, c ∉ pat) :
    pat <:+: a ++ b ↔ pat <:+: a := by
  rw [← List.reverse_infix, List.reverse_append,
    infix_append_left b.reverse a.reverse pat.reverse (by simpa using hpat)
      (by simpa using h),
    List.reverse_infix]

theorem isTableFragment_iff (s : Str) :
    isTableFragment s = true ↔
      ['|'] <:+: s ∧ (['-', '-', '-'] <:+: s ∨ [':', '-', '-'] <:+: s) := by
  simp [isTableFragment, includes_iff]

theorem isTableFragment_append_left (a b : Str)
    (h : ∀ c ∈ a, c ≠ '|' ∧ c ≠ '-' ∧ c ≠ ':') :
    isTableFragment (a ++ b) = isTableFragment b := by
  rw [Bool.eq_iff_iff, isTableFragment_iff, isTableFragment_iff,
    infix_append_left a b ['|'] (by simp) (fun c hc => by simpa using (h c hc).1),
    infix_append_left a b ['-', '-', '-'] (by simp) (fun c hc => by simpa using (h c hc).2.1),
    infix_append_left a b [':', '-', '-'] (by simp)
      (fun c hc => by simpa using ⟨(h c hc).2.2, (h c hc).2.1⟩)]

theorem isTableFragment_append_right (a b : Str)
    (h : ∀ c ∈ b, c ≠ '|' ∧ c ≠ '-' ∧ c ≠ ':') :
    isTableFragment (a ++ b) = isTableFragment a := by
  rw [Bool.eq_iff_iff, isTableFragment_iff, isTableFragment_iff,
    infix_append_right a b ['|'] (by simp) (fun c hc => by simpa using (h c hc).1),
    infix_append_right a b ['-', '-', '-'] (by simp) (fun c hc => by simpa using (h c hc).2.1),
    infix_append_right a b [':', '-', '-'] (by simp)
      (fun c hc => by simpa using ⟨(h c hc).2.2, (h c hc).2.1⟩)]

theorem mem_of_isTableFragment (s : Str) (h : isTableFragment s = true) : '|' ∈ s := by
  rw [isTableFragment_iff] at h
  exact h.1.subset (by simp)

/-- White space at either end of a line does not change whether it is treated as a table. -/
theorem isTableFragment_trim (s : Str) : isTableFragment (trim s) = isTableFragment s := by
  have h1 := List.takeWhile_append_dropWhile isWhiteSpace s
  have h2 : s.dropWhile isWhiteSpace =
      trim s ++ ((s.dropWhile isWhiteSpace).reverse.takeWhile isWhiteSpace).reverse := by
    rw [trim, ← List.reverse_append, List.takeWhile_append_dropWhile, List.reverse_reverse]
  have hs : s = s.takeWhile isWhiteSpace ++
      (trim s ++ ((s.dropWhile isWhiteSpace).reverse.takeWhile isWhiteSpace).reverse) := by
    rw [← h2, h1]
  have ha : ∀ c ∈ s.takeWhile isWhiteSpace, c ≠ '|' ∧ c ≠ '-' ∧ c ≠ ':' := fun c hc =>
    let h := not_special_of_isWhiteSpace c (mem_takeWhile_imp _ _ hc)
    ⟨h.1, h.2.1, h.2.2.1⟩
  have hb : ∀ c ∈ ((s.dropWhile isWhiteSpace).reverse.takeWhile isWhiteSpace).reverse,
      c ≠ '|' ∧ c ≠ '-' ∧ c ≠ ':' := fun c hc =>
    let h := not_special_of_isWhiteSpace c (mem_takeWhile_imp _ _ (List.mem_reverse.mp hc))
    ⟨h.1, h.2.1, h.2.2.1⟩
  conv_rhs => rw [hs]
  rw [isTableFragment_append_left _ _ ha, isTableFragment_append_right _ _ hb]

/-! ## Heading reconstruction -/

theorem fixHeader_of_none (t : Str) (h : headerMatch t = none) : fixHeader t = t := by
  simp [fixHeader, h]

theorem fixHeader_of_some (t major minor title : Str)
    (h : headerMatch t = some (major, minor, title)) :
    fixHeader t = (if minor = ['0'] then ['#', '#', ' '] else ['#', '#', '#', ' ']) ++
      major ++ ['.'] ++ minor ++ [' '] ++ title := by
  simp only [fixHeader, h]
  split_ifs <;> rfl

/-- Rewriting a line as a heading does not change whether it is treated as a table: in both
forms that is decided by the title group. -/
theorem isTableFragment_fixHeader_of_some (t major minor title : Str)
    (h : headerMatch t = some (major, minor, title)) :
    isTableFragment (fixHeader t) = isTableFragment title ∧
      isTableFragment t = isTableFragment title := by
  obtain ⟨sp, hs, -, hmaj, -, hmin, -, hsp, -, -⟩ := headerMatch_some t major minor title h
  have hd : ∀ c, isDigit c = true → c ≠ '|' ∧ c ≠ '-' ∧ c ≠ ':' := fun c hc =>
    let h := not_special_of_isDigit c hc
    ⟨h.1, h.2.1, h.2.2.1⟩
  have hw : ∀ c, isWhiteSpace c = true → c ≠ '|' ∧ c ≠ '-' ∧ c ≠ ':' := fun c hc =>
    let h := not_special_of_isWhiteSpace c hc
    ⟨h.1, h.2.1, h.2.2.1⟩
  constructor
  · rw [fixHeader_of_some t major minor title h]
    apply isTableFragment_append_left
    intro c hc
    simp only [List.mem_append, List.mem_singleton] at hc
    rcases hc with (((hc | hc) | rfl) | hc) | rfl
    · split_ifs at hc <;> simp at hc <;> rcases hc with rfl | rfl <;> decide
    · exact hd c (hmaj c hc)
    · decide
    · exact hd c (hmin c hc)
    · decide
  · conv_lhs => rw [hs]
    apply isTableFragment_append_left
    intro c hc
    simp only [List.mem_append, List.mem_cons] at hc
    rcases hc with (hc | rfl | hc) | hc
    · exact hd c (hmaj c hc)
    · decide
    · exact hd c (hmin c hc)
    · exact hw c (hsp c hc)

theorem isTableFragment_fixHeader (t : Str) :
    isTableFragment (fixHeader t) = isTableFragment t := by
  cases h : headerMatch t with
  | none => rw [fixHeader_of_none t h]
  | some g =>
    obtain ⟨major, minor, title⟩ := g
    have := isTableFragment_fixHeader_of_some t major minor title h
    rw [this.1, this.2]

theorem processBody_of_not_table (t : Str) (h : isTableFragment t = false) :
    processBody t = fixHeader t := by
  have hf := isTableFragment_fixHeader t
  rw [h] at hf
  simp [processBody, hf]

theorem processBody_of_table (t : Str) (h : isTableFragment t = true) :
    processBody t = fixTable (fixHeader t) := by
  have hf := isTableFragment_fixHeader t
  rw [h] at hf
  simp [processBody, hf]

/-! ## The output is the joined fragments -/

theorem preprocessMarkdown_string (s : Str) :
    preprocessMarkdown (.string s) = join (processLines false (split s)) := by
  cases s with
  | nil => decide
  | cons c cs => simp [preprocessMarkdown]

theorem lt_length_of_getD_ne {α : Type} (l : List α) (j : Nat) (d : α) (h : l.getD j d ≠ d) :
    j < l.length := by
  by_contra hn
  exact h (List.getD_eq_default _ _ (not_lt.mp hn))

/-! ## Empty and absent input -/

/-- C1: `preprocessMarkdown` returns exactly the empty string for the empty string, for `null`
and for `undefined`; the function is total, so no input raises. -/
theorem preprocessMarkdown_empty_or_absent :
    preprocessMarkdown (.string []) = [] ∧
      preprocessMarkdown .null = [] ∧
      preprocessMarkdown .undefined = [] :=
  ⟨rfl, rfl, rfl⟩

/-! ## Heading depth -/

/-- C4: for a line after the title line whose trimmed form matches the numbered-heading
pattern with groups `major`, `minor`, `title` and is not treated as a table, the trimmed form
is `major`, a dot, `minor`, a non-empty white-space run and `title`, and the fragment pushed at
the position of the line is `## major.minor title` when `minor` is the string `0` and
`### major.minor title` otherwise, with one space in place of the white-space run. -/
theorem heading_depth_law (s : Str) (j : Nat) (major minor title : Str)
    (hafter : ∃ i, i < j ∧ trim ((split s).getD i []) ≠ [])
    (hm : headerMatch (trim ((split s).getD j [])) = some (major, minor, title))
    (hnt : isTableFragment (trim ((split s).getD j [])) = false) :
    preprocessMarkdown (.string s) = join (processLines false (split s)) ∧
      (∃ sp, sp ≠ [] ∧ (∀ c ∈ sp, isWhiteSpace c = true) ∧
        trim ((split s).getD j []) = major ++ ['.'] ++ minor ++ sp ++ title) ∧
      (processLines false (split s))[j]? =
        some (if minor = ['0'] then ['#', '#', ' '] ++ major ++ ['.'] ++ minor ++ [' '] ++ title
          else ['#', '#', '#', ' '] ++ major ++ ['.'] ++ minor ++ [' '] ++ title) := by
  have hj : j < (split s).length := by
    apply lt_length_of_getD_ne _ _ []
    intro e
    have hn : headerMatch (trim []) = none := by decide
    rw [e, hn] at hm
    cases hm
  refine ⟨preprocessMarkdown_string s, ?_, ?_⟩
  · obtain ⟨sp, hs, -, -, -, -, hsp, hws, -, -⟩ := headerMatch_some _ _ _ _ hm
    exact ⟨sp, hsp, hws, by rw [hs]; simp⟩
  · rw [fragment_after_title _ j hj hafter]
    rw [processBody_of_not_table _ hnt, fixHeader_of_some _ _ _ _ hm]
    split_ifs <;> rfl

/-! ## Pass-through -/

/-- C5: a line that is not the title line (it trims to the empty string, or an earlier line has
a non-empty trimmed form), whose trimmed form does not match the numbered-heading pattern and
which does not contain both a pipe and a separator marker, is pushed as exactly its trimmed
form at its own position among the fragments, of which there are as many as input lines. -/
theorem pass_through_law (s : Str) (j : Nat) (hj : j < (split s).length)
    (hnot : trim ((split s).getD j []) = [] ∨ ∃ i, i < j ∧ trim ((split s).getD i []) ≠ [])
    (hnh : headerMatch (trim ((split s).getD j [])) = none)
    (hnt : isTableFragment ((split s).getD j []) = false) :
    preprocessMarkdown (.string s) = join (processLines false (split s)) ∧
      (processLines false (split s)).length = (split s).length ∧
      (processLines false (split s))[j]? = some (trim ((split s).getD j [])) := by
  refine ⟨preprocessMarkdown_string s, processLines_length _ _, ?_⟩
  rcases hnot with hb | ha
  · rw [fragment_blank _ j hj hb, hb]
  · rw [fragment_after_title _ j hj ha]
    rw [← isTableFragment_trim] at hnt
    rw [processBody_of_not_table _ hnt, fixHeader_of_none _ hnh]

/-! ## Order of the two line transforms -/

/-- C8 (as amended): a line that matches the numbered-heading pattern is treated as a table
exactly when its title group contains a pipe and a separator marker, before and after the
rewrite alike; such a line is rewritten as a heading first and the heading is then split as a
table, and a matching line whose title has no pipe or no marker is only rewritten. -/
theorem heading_then_table (t major minor title : Str)
    (h : headerMatch t = some (major, minor, title)) :
    isTableFragment t = isTableFragment title ∧
      isTableFragment (fixHeader t) = isTableFragment title ∧
      processBody t = if isTableFragment title = true then fixTable (fixHeader t)
        else fixHeader t := by
  have := isTableFragment_fixHeader_of_some t major minor title h
  refine ⟨this.2, this.1, ?_⟩
  simp only [processBody, this.1]

/-! ## The row-break pattern -/

theorem rowBreakLength_some (s : Str) (n : Nat) (h : rowBreakLength s = some n) :
    ∃ ws r, s = ws ++ '|' :: r ∧ ws ≠ [] ∧ (∀ c ∈ ws, isWhiteSpace c = true) ∧
      n = ws.length + 1 := by
  unfold rowBreakLength at h
  have hs := List.takeWhile_append_dropWhile isWhiteSpace s
  split at h
  next r hd =>
    simp only at h
    split_ifs at h with hne
    simp only [Option.some.injEq] at h
    refine ⟨s.takeWhile isWhiteSpace, r, ?_, hne, fun c hc => mem_takeWhile_imp _ _ hc, h.symm⟩
    rw [← hd, hs]
  next => simp at h

theorem rowBreakLength_append (ws r : Str) (hne : ws ≠ [])
    (hws : ∀ c ∈ ws, isWhiteSpace c = true) :
    rowBreakLength (ws ++ '|' :: r) = some (ws.length + 1) := by
  have := takeWhile_append_cons ws '|' r hws (by decide)
  simp [rowBreakLength, this.1, this.2, hne]

theorem rowBreakLength_mono (q s : Str) (n : Nat) (hq : rowBreakLength q = some n)
    (hp : q <+: s) : rowBreakLength s = some n := by
  obtain ⟨ws, r, rfl, hne, hws, rfl⟩ := rowBreakLength_some q n hq
  obtain ⟨t, rfl⟩ := hp
  rw [List.append_assoc, List.cons_append]
  exact rowBreakLength_append ws (r ++ t) hne hws

theorem replaceRowBreaksFrom_skip (n : Nat) (s : Str) :
    replaceRowBreaksFrom n s = replaceRowBreaksFrom 0 (s.drop n) := by
  induction s generalizing n with
  | nil => cases n <;> simp [replaceRowBreaksFrom]
  | cons c cs ih =>
    cases n with
    | zero => simp
    | succ n => simp [replaceRowBreaksFrom, ih n]

theorem replaceRowBreaks_nil : replaceRowBreaks [] = [] := rfl

theorem replaceRowBreaks_cons_of_ne (c : Char) (cs : Str) (h : c ≠ '|') :
    replaceRowBreaks (c :: cs) = c :: replaceRowBreaks cs := by
  simp [replaceRowBreaks, replaceRowBreaksFrom, h]

theorem replaceRowBreaks_pipe_of_none (cs : Str) (h : rowBreakLength cs = none) :
    replaceRowBreaks ('|' :: cs) = '|' :: replaceRowBreaks cs := by
  simp [replaceRowBreaks, replaceRowBreaksFrom, h]

theorem replaceRowBreaks_pipe_of_some (ws r : Str) (hne : ws ≠ [])
    (hws : ∀ c ∈ ws, isWhiteSpace c = true) :
    replaceRowBreaks ('|' :: (ws ++ '|' :: r)) = '|' :: '\n' :: '|' :: replaceRowBreaks r := by
  simp only [replaceRowBreaks, replaceRowBreaksFrom, if_true, rowBreakLength_append ws r hne hws]
  rw [replaceRowBreaksFrom_skip]
  simp

/-- A stretch without pipes is copied by the replacement. -/
theorem replaceRowBreaks_append_of_no_pipe (a b : Str) (h : '|' ∉ a) :
    replaceRowBreaks (a ++ b) = a ++ replaceRowBreaks b := by
  induction a with
  | nil => rfl
  | cons c cs ih =>
    have hc : c ≠ '|' := fun e => h (by simp [e])
    rw [List.cons_append, replaceRowBreaks_cons_of_ne _ _ hc,
      ih (fun e => h (List.mem_cons_of_mem _ e)), List.cons_append]

theorem split_cons_of_ne (c : Char) (z : Str) (hc : c ≠ '\n') (q0 : Str) (qs : List Str)
    (h : split z = q0 :: qs) : split (c :: z) = (c :: q0) :: qs := by
  simp [split, hc, h, List.modifyHead]

theorem split_cons_newline (z : Str) : split ('\n' :: z) = [] :: split z := by
  simp [split]

/-! ## The pieces of a row-broken line -/

theorem rowBreakAt_cons_of_ne (c : Char) (r : Str) (h : c ≠ '|') : rowBreakAt (c :: r) = false := by
  unfold rowBreakAt
  split
  · rename_i heq
    simp only [List.cons.injEq] at heq
    exact absurd heq.1 h
  · rfl

theorem rowBreakAt_pipe (r : Str) : rowBreakAt ('|' :: r) = (rowBreakLength r).isSome := rfl

theorem getLast?_cons_of_ne_nil (c : Char) (cs : Str) (h : cs ≠ []) :
    (c :: cs).getLast? = cs.getLast? := by
  cases cs with
  | nil => exact absurd rfl h
  | cons d ds => simp

theorem ne_nil_of_startsWith (p : Str) (c : Char) (h : startsWith p c = true) : p ≠ [] := by
  intro e
  subst e
  simp [startsWith] at h

/-- The pieces after copying one character. -/
theorem rowPieces_copy (c : Char) (cs q0 : Str) (qs : List Str)
    (hc : c ≠ '|' ∨ rowBreakLength cs = none) (h : RowPieces cs q0 qs) :
    RowPieces (c :: cs) (c :: q0) qs := by
  obtain ⟨hp, hne, hocc, hst, hin, hlast⟩ := h
  have hlast_tail : ∀ p ∈ qs, p.getLast? = some '|' ∨ p.getLast? = (c :: cs).getLast? := by
    intro p hpm
    rcases hlast p (List.mem_cons_of_mem _ hpm) with h1 | h1
    · exact Or.inl h1
    · right
      have hcs : cs ≠ [] := by
        intro e
        subst e
        simp only [List.getLast?_nil, List.getLast?_eq_none_iff] at h1
        exact ne_nil_of_startsWith p '|' (hst p hpm) h1
      rw [getLast?_cons_of_ne_nil c cs hcs, h1]
  refine ⟨(List.prefix_cons_inj c).mpr hp, fun _ => by simp, ?_, hst, hin, ?_⟩
  · intro t ht
    rcases List.suffix_cons_iff.mp ht with rfl | ht
    · by_cases hcp : c = '|'
      · subst hcp
        rw [rowBreakAt_pipe]
        cases hq : rowBreakLength q0 with
        | none => rfl
        | some n =>
          have := rowBreakLength_mono q0 cs n hq hp
          rcases hc with hc | hc
          · exact absurd rfl hc
          · rw [hc] at this; cases this
      · exact rowBreakAt_cons_of_ne c q0 hcp
    · exact hocc t ht
  · intro p hpm
    rcases List.mem_cons.mp hpm with rfl | hpm
    · cases q0 with
      | nil =>
        have hcs : cs = [] := by
          by_contra hn
          exact hne hn rfl
        subst hcs
        exact Or.inr rfl
      | cons d q0' =>
        have hcs : cs ≠ [] := by
          intro e
          subst e
          simp at hp
        rw [List.getLast?_cons_cons, getLast?_cons_of_ne_nil c cs hcs]
        exact hlast (d :: q0') (by simp)
    · exact hlast_tail p hpm

/-- The pieces after replacing one match of the pattern. -/
theorem rowPieces_replace (ws r q0 : Str) (qs : List Str) (h : RowPieces r q0 qs) :
    RowPieces ('|' :: (ws ++ '|' :: r)) ['|'] (('|' :: q0) :: qs) := by
  obtain ⟨hp, hne, hocc, hst, hin, hlast⟩ := h
  have hlast_r : ∀ p : Str, p ≠ [] → (p.getLast? = some '|' ∨ p.getLast? = r.getLast?) →
      (p.getLast? = some '|' ∨ p.getLast? = ('|' :: (ws ++ '|' :: r)).getLast?) := by
    intro p hpne h1
    rcases h1 with h1 | h1
    · exact Or.inl h1
    · right
      have hr : r ≠ [] := by
        intro e
        subst e
        simp only [List.getLast?_nil, List.getLast?_eq_none_iff] at h1
        exact hpne h1
      rw [h1, getLast?_cons_of_ne_nil _ _ (by simp), List.getLast?_append_of_ne_nil _ (by simp),
        getLast?_cons_of_ne_nil _ _ hr]
  refine ⟨⟨ws ++ '|' :: r, rfl⟩, fun _ => by simp, ?_, ?_, ?_, ?_⟩
  · intro t ht
    rcases List.suffix_cons_iff.mp ht with rfl | ht
    · decide
    · have : t = [] := by simpa using ht
      subst this
      rfl
  · intro p hpm
    rcases List.mem_cons.mp hpm with rfl | hpm
    · rfl
    · exact hst p hpm
  · intro p hpm a t hpa ha
    rcases List.mem_cons.mp hpm with rfl | hpm
    · cases a with
      | nil => exact absurd rfl ha
      | cons x a' =>
        simp only [List.cons_append, List.cons.injEq] at hpa
        exact hocc t ⟨a', hpa.2.symm⟩
    · exact hin p hpm a t hpa ha
  · intro p hpm
    rcases List.mem_cons.mp hpm with rfl | hpm
    · exact Or.inl rfl
    · rcases List.mem_cons.mp hpm with rfl | hpm
      · cases q0 with
        | nil => exact Or.inl rfl
        | cons d q0' =>
          rw [List.getLast?_cons_cons]
          exact hlast_r (d :: q0') (by simp) (hlast (d :: q0') (by simp))
      · exact hlast_r p (ne_nil_of_startsWith p '|' (hst p hpm))
          (hlast p (List.mem_cons_of_mem _ hpm))

theorem replaceRowBreaks_pieces_aux : ∀ (n : Nat) (s : Str), s.length ≤ n → '\n' ∉ s →
    ∃ p0 ps, split (replaceRowBreaks s) = p0 :: ps ∧ RowPieces s p0 ps := by
  intro n
  induction n with
  | zero =>
    intro s hlen _
    have : s = [] := List.length_eq_zero.mp (Nat.le_zero.mp hlen)
    subst this
    refine ⟨[], [], rfl, ⟨List.prefix_refl _, fun h => absurd rfl h, ?_, ?_, ?_, ?_⟩⟩
    · intro t ht
      have : t = [] := by simpa using ht
      subst this
      rfl
    · simp
    · simp
    · simp
  | succ n ih =>
    intro s hlen hnl
    cases s with
    | nil => exact ih [] (Nat.zero_le _) hnl
    | cons c cs =>
      have hcn : c ≠ '\n' := fun e => hnl (by simp [e])
      have hcsn : '\n' ∉ cs := fun e => hnl (List.mem_cons_of_mem _ e)
      have hcslen : cs.length ≤ n := by simpa using hlen
      by_cases hcp : c = '|'
      · subst hcp
        cases hrb : rowBreakLength cs with
        | none =>
          obtain ⟨q0, qs, hsplit, hinv⟩ := ih cs hcslen hcsn
          refine ⟨'|' :: q0, qs, ?_, rowPieces_copy _ _ _ _ (Or.inr hrb) hinv⟩
          rw [replaceRowBreaks_pipe_of_none cs hrb]
          exact split_cons_of_ne _ _ hcn _ _ hsplit
        | some m =>
          obtain ⟨ws, r, rfl, hne, hws, -⟩ := rowBreakLength_some cs m hrb
          have hrn : '\n' ∉ r := fun e => hcsn (by simp [e])
          have hrlen : r.length ≤ n := by
            simp only [List.length_append, List.length_cons] at hcslen
            omega
          obtain ⟨q0, qs, hsplit, hinv⟩ := ih r hrlen hrn
          refine ⟨['|'], ('|' :: q0) :: qs, ?_, rowPieces_replace ws r q0 qs hinv⟩
          rw [replaceRowBreaks_pipe_of_some ws r hne hws]
          rw [split_cons_of_ne '|' _ (by decide) [] (('|' :: q0) :: qs)]
          rw [split_cons_newline, split_cons_of_ne '|' _ (by decide) _ _ hsplit]
      · obtain ⟨q0, qs, hsplit, hinv⟩ := ih cs hcslen hcsn
        refine ⟨c :: q0, qs, ?_, rowPieces_copy _ _ _ _ (Or.inl hcp) hinv⟩
        rw [replaceRowBreaks_cons_of_ne c cs hcp]
        exact split_cons_of_ne _ _ hcn _ _ hsplit

/-- The pieces of the row-broken form of a line. -/
theorem replaceRowBreaks_pieces (s : Str) (h : '\n' ∉ s) :
    ∃ p0 ps, split (replaceRowBreaks s) = p0 :: ps ∧ RowPieces s p0 ps :=
  replaceRowBreaks_pieces_aux s.length s (le_refl _) h

/-! ## Caption extraction -/

theorem indexOf_spec (l : Str) (c : Char) :
    (c ∉ l ∧ indexOf l c = -1) ∨
      ∃ a b, l = a ++ c :: b ∧ c ∉ a ∧ indexOf l c = (a.length : Int) := by
  induction l with
  | nil => left; simp [indexOf]
  | cons d ds ih =>
    by_cases hd : d = c
    · right
      exact ⟨[], ds, by simp [hd], by simp, by simp [indexOf, hd]⟩
    · rcases ih with ⟨hn, hi⟩ | ⟨a, b, hl, ha, hi⟩
      · left
        refine ⟨by simp [hn, Ne.symm hd], ?_⟩
        simp [indexOf, hd, hi]
      · right
        refine ⟨d :: a, b, by simp [hl], by simp [ha, Ne.symm hd], ?_⟩
        have hnn : ¬ ((a.length : Int) < 0) := by omega
        simp [indexOf, hd, hi, hnn]

theorem splitCaption_cases (p0 : Str) :
    splitCaption p0 = p0 ∨
      ∃ a b, p0 = a ++ '|' :: b ∧ a ≠ [] ∧ '|' ∉ a ∧
        splitCaption p0 = trim a ++ ['\n', '\n'] ++ '|' :: b := by
  by_cases h1 : startsWith (trim p0) '|' = true
  · left; simp [splitCaption, h1]
  · by_cases h2 : indexOf p0 '|' > 0
    · right
      rcases indexOf_spec p0 '|' with ⟨-, hi⟩ | ⟨a, b, hl, ha, hi⟩
      · rw [hi] at h2; simp at h2
      · have h3 := h2
        rw [hi] at h3
        have hlen : 0 < a.length := by exact_mod_cast h3
        refine ⟨a, b, hl, List.length_pos.mp hlen, ha, ?_⟩
        simp only [splitCaption, h1, Bool.not_false, if_true, h2, substringTo, substringFrom,
          hi, Int.toNat_ofNat]
        rw [hl, List.take_left, List.drop_left, if_pos h3]
    · left; simp [splitCaption, h1, h2]

/-- The caption split of a first block line with text before its first pipe. -/
theorem splitCaption_append (a b : Str) (hne : a ≠ []) (hp : '|' ∉ a)
    (hhead : ∀ c, a.head? = some c → isWhiteSpace c = false) :
    splitCaption (a ++ '|' :: b) = trim a ++ ['\n', '\n'] ++ '|' :: b := by
  have hh : ∀ c, (a ++ '|' :: b).head? = some c → isWhiteSpace c = false := by
    intro c hc
    cases a with
    | nil => exact absurd rfl hne
    | cons d ds => exact hhead c (by simpa using hc)
  have ht := (trim_prefix_of_head (a ++ '|' :: b) hh).2.2
  have hst : startsWith (trim (a ++ '|' :: b)) '|' = false := by
    cases a with
    | nil => exact absurd rfl hne
    | cons d ds =>
      have hd : d ≠ '|' := fun e => hp (by simp [e])
      cases htr : trim (d :: ds ++ '|' :: b) with
      | nil => rfl
      | cons x xs =>
        rw [htr] at ht
        simp only [List.head?_cons, List.cons_append, Option.some.injEq] at ht
        simp [startsWith, ht, hd]
  rcases indexOf_spec (a ++ '|' :: b) '|' with ⟨hn, -⟩ | ⟨a2, b2, hl, ha2, hi⟩
  · exact absurd (by simp) hn
  · have hlen : a2 = a ∧ b2 = b := by
      have h3 := List.append_eq_append_iff.mp hl
      rcases h3 with ⟨x, hx1, hx2⟩ | ⟨x, hx1, hx2⟩
      · cases x with
        | nil => simp at hx1 hx2; exact ⟨hx1, hx2.symm⟩
        | cons y ys =>
          simp only [List.cons_append, List.cons.injEq] at hx2
          exact absurd (by rw [hx1, ← hx2.1]; simp) ha2
      · cases x with
        | nil => simp at hx1 hx2; exact ⟨hx1.symm, hx2⟩
        | cons y ys =>
          simp only [List.cons_append, List.cons.injEq] at hx2
          exact absurd (by rw [hx1, ← hx2.1]; simp) hp
    obtain ⟨rfl, rfl⟩ := hlen
    have hpos : (0 : Int) < (a2.length : Int) := by
      exact_mod_cast List.length_pos.mpr hne
    simp only [splitCaption, hst, Bool.not_false, if_true, hi, gt_iff_lt, hpos, substringTo,
      substringFrom, Int.toNat_ofNat, List.take_left, List.drop_left]

theorem split_append_of_not_mem (a z q0 : Str) (qs : List Str) (ha : '\n' ∉ a)
    (h : split z = q0 :: qs) : split (a ++ z) = (a ++ q0) :: qs := by
  induction a with
  | nil => simpa using h
  | cons c cs ih =>
    have hc : c ≠ '\n' := fun e => ha (by simp [e])
    rw [List.cons_append, List.cons_append]
    exact split_cons_of_ne c _ hc _ _ (ih (fun e => ha (List.mem_cons_of_mem _ e)))

theorem split_join_of_not_mem (frags : List Str) (hne : frags ≠ [])
    (h : ∀ f ∈ frags, '\n' ∉ f) : split (join frags) = frags := by
  induction frags with
  | nil => exact absurd rfl hne
  | cons a rest ih =>
    by_cases hr : rest = []
    · subst hr
      simpa [join] using split_of_not_mem a (h a (by simp))
    · rw [split_join_cons a rest hr, split_of_not_mem a (h a (by simp)),
        ih hr (fun f hf => h f (List.mem_cons_of_mem _ hf))]
      rfl

theorem split_join_cons_of_not_mem (x : Str) (ps : List Str) (h : ∀ f ∈ ps, '\n' ∉ f) :
    split (join (x :: ps)) = split x ++ ps := by
  by_cases hr : ps = []
  · subst hr; simp [join]
  · rw [split_join_cons x ps hr, split_join_of_not_mem ps hr h]

/-! ## The fragment of a collapsed table -/

theorem fixTable_eq (y p0 : Str) (ps : List Str) (h : split (replaceRowBreaks y) = p0 :: ps) :
    fixTable y = join (splitCaption p0 :: ps) := by
  simp [fixTable, h]

/-- The newline-delimited lines of the fragment pushed for a collapsed table: the pieces of
the row-broken line, the first of them split into caption, empty line and row when it has
text before its first pipe. -/
theorem split_fixTable (y : Str) (hn : '\n' ∉ y) :
    ∃ p0 ps, split (replaceRowBreaks y) = p0 :: ps ∧ RowPieces y p0 ps ∧
      ((fixTable y = replaceRowBreaks y ∧ split (fixTable y) = p0 :: ps) ∨
        ∃ a b, p0 = a ++ '|' :: b ∧ a ≠ [] ∧ '|' ∉ a ∧
          split (fixTable y) = trim a :: [] :: ('|' :: b) :: ps) := by
  obtain ⟨p0, ps, hsplit, hinv⟩ := replaceRowBreaks_pieces y hn
  refine ⟨p0, ps, hsplit, hinv, ?_⟩
  have hnl : ∀ f ∈ p0 :: ps, '\n' ∉ f := by
    intro f hf
    rw [← hsplit] at hf
    exact not_mem_of_mem_split _ f hf
  have hps : ∀ f ∈ ps, '\n' ∉ f := fun f hf => hnl f (List.mem_cons_of_mem _ hf)
  rw [fixTable_eq y p0 ps hsplit]
  rcases splitCaption_cases p0 with h | ⟨a, b, hp0, hane, hpa, hcap⟩
  · left
    rw [h, ← hsplit, join_split]
    exact ⟨rfl, rfl⟩
  · right
    refine ⟨a, b, hp0, hane, hpa, ?_⟩
    have hp0n : '\n' ∉ p0 := hnl p0 (by simp)
    have han : '\n' ∉ trim a := fun e =>
      hp0n (by rw [hp0]; exact List.mem_append_left _ (mem_of_mem_trim a _ e))
    have hbn : '\n' ∉ '|' :: b := fun e =>
      hp0n (by rw [hp0]; exact List.mem_append_right _ e)
    rw [split_join_cons_of_not_mem _ ps hps, hcap]
    have : trim a ++ ['\n', '\n'] ++ '|' :: b = trim a ++ '\n' :: ('\n' :: '|' :: b) := by simp
    rw [this, split_append_newline, split_cons_newline, split_of_not_mem _ han,
      split_of_not_mem _ hbn]
    rfl

/-! ## White space at the ends of output lines -/

theorem last_clean_of_rowPieces (y p0 : Str) (ps : List Str) (hy : Clean y)
    (h : RowPieces y p0 ps) (p : Str) (hp : p ∈ p0 :: ps) :
    ∀ c, p.getLast? = some c → isWhiteSpace c = false := by
  intro c hc
  rcases h.2.2.2.2.2 p hp with h1 | h1
  · rw [h1] at hc
    simp only [Option.some.injEq] at hc
    subst hc
    decide
  · rw [h1] at hc
    exact hy.2 c hc

theorem head_clean_of_startsWith_pipe (p : Str) (h : startsWith p '|' = true) :
    ∀ c, p.head? = some c → isWhiteSpace c = false := by
  intro c hc
  cases p with
  | nil => simp at hc
  | cons d ds =>
    simp only [startsWith, decide_eq_true_eq] at h
    simp only [List.head?_cons, Option.some.injEq] at hc
    subst hc h
    decide

theorem head?_eq_of_isPrefix (p s : Str) (hp : p <+: s) (hne : p ≠ []) : p.head? = s.head? := by
  obtain ⟨t, rfl⟩ := hp
  cases p with
  | nil => exact absurd rfl hne
  | cons d ds => rfl

/-- Every line of the fragment pushed for a collapsed table is free of outer white space. -/
theorem clean_fixTable (y : Str) (hn : '\n' ∉ y) (hy : Clean y) :
    ∀ p ∈ split (fixTable y), Clean p := by
  obtain ⟨p0, ps, -, hinv, hcase⟩ := split_fixTable y hn
  have hlast := last_clean_of_rowPieces y p0 ps hy hinv
  have hps : ∀ p ∈ ps, Clean p := fun p hp =>
    ⟨head_clean_of_startsWith_pipe p (hinv.2.2.2.1 p hp), hlast p (List.mem_cons_of_mem _ hp)⟩
  have hp0head : ∀ c, p0.head? = some c → isWhiteSpace c = false := by
    intro c hc
    have hne : p0 ≠ [] := by intro e; subst e; simp at hc
    rw [head?_eq_of_isPrefix p0 y hinv.1 hne] at hc
    exact hy.1 c hc
  rcases hcase with ⟨-, h⟩ | ⟨a, b, hp0, -, -, h⟩
  · rw [h]
    intro p hp
    rcases List.mem_cons.mp hp with rfl | hp
    · exact ⟨hp0head, hlast _ (by simp)⟩
    · exact hps p hp
  · rw [h]
    intro p hp
    simp only [List.mem_cons] at hp
    rcases hp with rfl | rfl | rfl | hp
    · exact trim_clean a
    · exact clean_nil
    · refine ⟨head_clean_of_startsWith_pipe _ rfl, ?_⟩
      have hl := hlast p0 (by simp)
      rw [hp0, List.getLast?_append_of_ne_nil _ (by simp)] at hl
      exact hl
    · exact hps p hp

theorem fixHeader_not_mem_newline (t : Str) (hn : '\n' ∉ t) : '\n' ∉ fixHeader t := by
  cases h : headerMatch t with
  | none => rwa [fixHeader_of_none t h]
  | some g =>
    obtain ⟨major, minor, title⟩ := g
    obtain ⟨sp, hs, -, hmaj, -, hmin, -, -, -, hlt⟩ := headerMatch_some t major minor title h
    rw [fixHeader_of_some t major minor title h]
    intro hm
    simp only [List.mem_append, List.mem_singleton] at hm
    rcases hm with ((((hm | hm) | hm) | hm) | hm) | hm
    · split_ifs at hm <;> simp at hm
    · exact (not_special_of_isDigit _ (hmaj _ hm)).2.2.2.2.2 rfl
    · exact absurd hm (by decide)
    · exact (not_special_of_isDigit _ (hmin _ hm)).2.2.2.2.2 rfl
    · exact absurd hm (by decide)
    · have := hlt _ hm
      revert this
      decide

theorem fixHeader_clean (t : Str) (ht : Clean t) : Clean (fixHeader t) := by
  cases h : headerMatch t with
  | none => rwa [fixHeader_of_none t h]
  | some g =>
    obtain ⟨major, minor, title⟩ := g
    obtain ⟨sp, hs, -, -, -, -, -, -, htne, -⟩ := headerMatch_some t major minor title h
    rw [fixHeader_of_some t major minor title h]
    constructor
    · intro c hc
      split_ifs at hc <;>
        (simp only [List.cons_append, List.head?_cons, Option.some.injEq] at hc
         subst hc
         decide)
    · intro c hc
      rw [List.getLast?_append_of_ne_nil _ htne] at hc
      apply ht.2 c
      rw [hs, List.getLast?_append_of_ne_nil _ htne]
      exact hc

theorem promoteTitle_clean (t : Str) (ht : Clean t) (hne : t ≠ []) : Clean (promoteTitle t) := by
  unfold promoteTitle
  split_ifs
  · constructor
    · intro c hc
      simp only [List.head?_cons, Option.some.injEq] at hc
      subst hc
      decide
    · intro c hc
      have e : ('#' :: ' ' :: t).getLast? = t.getLast? := by
        rw [getLast?_cons_of_ne_nil _ _ (by simp), getLast?_cons_of_ne_nil _ _ hne]
      rw [e] at hc
      exact ht.2 c hc
  · exact ht

theorem promoteTitle_not_mem_newline (t : Str) (hn : '\n' ∉ t) : '\n' ∉ promoteTitle t := by
  unfold promoteTitle
  split_ifs
  · intro hm
    simp only [List.mem_cons] at hm
    rcases hm with hm | hm | hm
    · exact absurd hm (by decide)
    · exact absurd hm (by decide)
    · exact hn hm
  · exact hn

theorem not_mem_trim_newline (raw : Str) (hn : '\n' ∉ raw) : '\n' ∉ trim raw :=
  fun e => hn (mem_of_mem_trim raw _ e)

theorem clean_processBody (t : Str) (hn : '\n' ∉ t) (ht : Clean t) :
    ∀ p ∈ split (processBody t), Clean p := by
  cases htab : isTableFragment t with
  | true =>
    rw [processBody_of_table t htab]
    exact clean_fixTable _ (fixHeader_not_mem_newline t hn) (fixHeader_clean t ht)
  | false =>
    rw [processBody_of_not_table t htab, split_of_not_mem _ (fixHeader_not_mem_newline t hn)]
    intro p hp
    rw [List.mem_singleton.mp hp]
    exact fixHeader_clean t ht

theorem clean_processLine (b : Bool) (raw : Str) (hn : '\n' ∉ raw) :
    ∀ p ∈ split (processLine b raw).2, Clean p := by
  have hnt := not_mem_trim_newline raw hn
  by_cases hb : b = false ∧ trim raw ≠ []
  · obtain ⟨rfl, hne⟩ := hb
    rw [processLine_title raw hne, split_of_not_mem _ (promoteTitle_not_mem_newline _ hnt)]
    intro p hp
    rw [List.mem_singleton.mp hp]
    exact promoteTitle_clean _ (trim_clean raw) hne
  · have : (processLine b raw).2 = processBody (trim raw) := by
      cases b with
      | true => exact processLine_true raw
      | false =>
        have he : trim raw = [] := by
          by_contra hne
          exact hb ⟨rfl, hne⟩
        rw [processLine_blank false raw he, he, processBody_nil]
    rw [this]
    exact clean_processBody _ hnt (trim_clean raw)

theorem clean_processLines (b : Bool) (lines : List Str) (hn : ∀ l ∈ lines, '\n' ∉ l) :
    ∀ f ∈ processLines b lines, ∀ p ∈ split f, Clean p := by
  induction lines generalizing b with
  | nil => simp [processLines]
  | cons raw rest ih =>
    intro f hf
    simp only [processLines, List.mem_cons] at hf
    rcases hf with rfl | hf
    · exact clean_processLine b raw (hn raw (by simp))
    · exact ih _ (fun l hl => hn l (List.mem_cons_of_mem _ hl)) f hf

/-- C10: no newline-delimited line of the output of `preprocessMarkdown` starts or ends with a
white-space character, whatever the input. -/
theorem output_lines_clean (markdown : Markdown) :
    ∀ p ∈ split (preprocessMarkdown markdown), Clean p := by
  intro p hp
  cases markdown with
  | null =>
    have : p = [] := by simpa [preprocessMarkdown, split] using hp
    rw [this]; exact clean_nil
  | undefined =>
    have : p = [] := by simpa [preprocessMarkdown, split] using hp
    rw [this]; exact clean_nil
  | string s =>
    rw [preprocessMarkdown_string] at hp
    rcases mem_split_join _ p hp with h | ⟨f, hf, hpf⟩
    · have := processLines_length false (split s)
      rw [h] at this
      exact absurd (List.length_eq_zero.mp this.symm) (split_ne_nil s)
    · exact clean_processLines false (split s) (not_mem_of_mem_split s) f hf p hpf

/-! ## Caption separation -/

theorem dropWhile_ne_pipe (t : Str) (h : '|' ∈ t) :
    '|' ∉ t.takeWhile (fun c => c != '|') ∧
      ∃ r, t.dropWhile (fun c => c != '|') = '|' :: r := by
  induction t with
  | nil => simp at h
  | cons c cs ih =>
    by_cases hc : c = '|'
    · subst hc
      simp [List.takeWhile, List.dropWhile]
    · have hcs : '|' ∈ cs := by
        rcases List.mem_cons.mp h with e | e
        · exact absurd e.symm hc
        · exact e
      obtain ⟨h1, r, h2⟩ := ih hcs
      have hb : (c != '|') = true := by simpa using hc
      refine ⟨?_, r, ?_⟩
      · simp only [List.takeWhile, hb, List.mem_cons, not_or]
        exact ⟨fun e => hc e.symm, h1⟩
      · simp only [List.dropWhile, hb, h2]

/-- The fragment pushed for a collapsed table that has text before its first pipe. -/
theorem fixTable_of_caption (t : Str) (hn : '\n' ∉ t) (ht : Clean t) (hp : '|' ∈ t)
    (hnp : startsWith t '|' = false) :
    trim (t.takeWhile (fun c => c != '|')) ≠ [] ∧
      fixTable t = trim (t.takeWhile (fun c => c != '|')) ++ ['\n', '\n'] ++
        replaceRowBreaks (t.dropWhile (fun c => c != '|')) ∧
      ∀ p ∈ split (replaceRowBreaks (t.dropWhile (fun c => c != '|'))),
        startsWith p '|' = true := by
  obtain ⟨hna, r, hr⟩ := dropWhile_ne_pipe t hp
  have hdecomp := List.takeWhile_append_dropWhile (fun c => c != '|') t
  set a := t.takeWhile (fun c => c != '|') with ha
  rw [hr] at hdecomp ⊢
  have hrn : '\n' ∉ '|' :: r := fun e => hn (by rw [← hdecomp]; exact List.mem_append_right _ e)
  have han : '\n' ∉ a := fun e => hn (by rw [← hdecomp]; exact List.mem_append_left _ e)
  have hane : a ≠ [] := by
    intro e
    rw [e] at hdecomp
    rw [← hdecomp] at hnp
    simp [startsWith] at hnp
  have hahead : ∀ c, a.head? = some c → isWhiteSpace c = false := by
    intro c hc
    apply ht.1 c
    rw [← hdecomp]
    cases hca : a with
    | nil => exact absurd hca hane
    | cons d ds => rw [hca] at hc; simpa using hc
  obtain ⟨q0, qs, hsplit, hinv⟩ := replaceRowBreaks_pieces ('|' :: r) hrn
  obtain ⟨q0', hq0⟩ : ∃ q0', q0 = '|' :: q0' := by
    have hne := hinv.2.1 (by simp)
    have hh := head?_eq_of_isPrefix q0 ('|' :: r) hinv.1 hne
    cases q0 with
    | nil => exact absurd rfl hne
    | cons d ds =>
      simp only [List.head?_cons, Option.some.injEq] at hh
      exact ⟨ds, by rw [hh]⟩
  have hsplit2 : split (replaceRowBreaks t) = (a ++ q0) :: qs := by
    rw [← hdecomp, replaceRowBreaks_append_of_no_pipe a _ hna]
    exact split_append_of_not_mem a _ q0 qs han hsplit
  refine ⟨(trim_prefix_of_head a hahead).2.1 hane, ?_, ?_⟩
  · rw [fixTable_eq t _ _ hsplit2, hq0, splitCaption_append a q0' hane hna hahead,
      join_append_cons, ← hq0, ← hsplit, join_split]
  · intro p hpm
    rw [hsplit] at hpm
    rcases List.mem_cons.mp hpm with rfl | hpm
    · rw [hq0]; rfl
    · exact hinv.2.2.2.1 p hpm

theorem split_caption_block (c z : Str) (hc : '\n' ∉ c) :
    split (c ++ ['\n', '\n'] ++ z) = c :: [] :: split z := by
  have : c ++ ['\n', '\n'] ++ z = c ++ '\n' :: ('\n' :: z) := by simp
  rw [this, split_append_newline, split_cons_newline, split_of_not_mem c hc]
  rfl

/-- C6: for a line after the title line whose trimmed form does not match the numbered-heading
pattern, contains a pipe and a separator marker and does not start with a pipe, the fragment
pushed at the position of the line is the trimmed text before the first pipe, which is not
empty, then an empty line, then the remainder from that first pipe on with the row breaks
inserted; every line of that remainder begins with a pipe, and the lines of the fragment are
the caption, the empty line and the lines of the remainder. -/
theorem table_caption_separation (s : Str) (j : Nat)
    (hafter : ∃ i, i < j ∧ trim ((split s).getD i []) ≠ [])
    (hnh : headerMatch (trim ((split s).getD j [])) = none)
    (htab : isTableFragment (trim ((split s).getD j [])) = true)
    (hnp : startsWith (trim ((split s).getD j [])) '|' = false) :
    preprocessMarkdown (.string s) = join (processLines false (split s)) ∧
      trim ((trim ((split s).getD j [])).takeWhile (fun c => c != '|')) ≠ [] ∧
      (processLines false (split s))[j]? =
        some (trim ((trim ((split s).getD j [])).takeWhile (fun c => c != '|')) ++
          ['\n', '\n'] ++
          replaceRowBreaks ((trim ((split s).getD j [])).dropWhile (fun c => c != '|'))) ∧
      (∀ p ∈ split (replaceRowBreaks
          ((trim ((split s).getD j [])).dropWhile (fun c => c != '|'))),
        startsWith p '|' = true) ∧
      split (trim ((trim ((split s).getD j [])).takeWhile (fun c => c != '|')) ++
          ['\n', '\n'] ++
          replaceRowBreaks ((trim ((split s).getD j [])).dropWhile (fun c => c != '|'))) =
        trim ((trim ((split s).getD j [])).takeWhile (fun c => c != '|')) :: [] ::
          split (replaceRowBreaks
            ((trim ((split s).getD j [])).dropWhile (fun c => c != '|'))) := by
  have hj : j < (split s).length := by
    apply lt_length_of_getD_ne _ _ []
    intro e
    rw [e] at htab
    exact absurd htab (by decide)
  have hn : '\n' ∉ trim ((split s).getD j []) := by
    apply not_mem_trim_newline
    rw [List.getD_eq_getElem _ _ hj]
    exact not_mem_of_mem_split s _ (List.getElem_mem _)
  obtain ⟨h1, h2, h3⟩ := fixTable_of_caption _ hn (trim_clean _)
    (mem_of_isTableFragment _ htab) hnp
  refine ⟨preprocessMarkdown_string s, h1, ?_, h3, ?_⟩
  · rw [fragment_after_title _ j hj hafter, processBody_of_table _ htab,
      fixHeader_of_none _ hnh, h2]
  · apply split_caption_block
    intro e
    exact hn ((List.takeWhile_prefix _).subset (mem_of_mem_trim _ _ e))

/-! ## Row breaks that survive -/

/-- C9 (as amended): the replacement scans the line from left to right and resumes after each
match: the first pipe that is followed by white space and another pipe is replaced, with that
white space and that pipe, by pipe, newline, pipe, and the scan goes on after it, so a match
that begins at the closing pipe of the previous match is kept.  In the fragment pushed for a
line, a pipe followed by white space and another pipe can therefore occur only at the very
start of a newline-delimited line, never further inside it. -/
theorem row_breaks_only_at_line_start (line : Str) (hn : '\n' ∉ line) :
    (∀ a ws r, '|' ∉ a → ws ≠ [] → (∀ c ∈ ws, isWhiteSpace c = true) →
        replaceRowBreaks (a ++ '|' :: (ws ++ '|' :: r)) =
          a ++ '|' :: '\n' :: '|' :: replaceRowBreaks r) ∧
      ∀ p ∈ split (fixTable line), ∀ a t, p = a ++ t → a ≠ [] → rowBreakAt t = false := by
  refine ⟨fun a ws r ha hne hws => by
    rw [replaceRowBreaks_append_of_no_pipe a _ ha, replaceRowBreaks_pipe_of_some ws r hne hws],
    ?_⟩
  obtain ⟨p0, ps, -, hinv, hcase⟩ := split_fixTable line hn
  obtain ⟨-, -, hocc, -, hin, -⟩ := hinv
  rcases hcase with ⟨-, h⟩ | ⟨a0, b0, hp0, -, hpa, h⟩
  · rw [h]
    intro p hp a t hpa ha
    rcases List.mem_cons.mp hp with rfl | hp
    · exact hocc t ⟨a, hpa.symm⟩
    · exact hin p hp a t hpa ha
  · rw [h]
    intro p hp a t hpat ha
    simp only [List.mem_cons] at hp
    rcases hp with rfl | rfl | rfl | hp
    · cases t with
      | nil => rfl
      | cons c cs =>
        by_cases hc : c = '|'
        · exfalso
          apply hpa
          apply mem_of_mem_trim
          rw [hpat, hc]
          simp
        · exact rowBreakAt_cons_of_ne c cs hc
    · have : t = [] := by
        have := congrArg List.length hpat
        simp only [List.length_nil, List.length_append] at this
        exact List.length_eq_zero.mp (by omega)
      rw [this]; rfl
    · apply hocc t
      refine ⟨a0 ++ a, ?_⟩
      rw [hp0, List.append_assoc, ← hpat]
    · exact hin p hp a t hpat ha

/-! ## The title line -/

theorem split_join_getElem? (frags : List Str) (i : Nat) (hi : i < frags.length)
    (h : ∀ m, m ≤ i → ∀ f, frags[m]? = some f → '\n' ∉ f) :
    (split (join frags))[i]? = frags[i]? := by
  induction frags generalizing i with
  | nil => simp at hi
  | cons a rest ih =>
    have ha : '\n' ∉ a := h 0 (Nat.zero_le _) a (by simp)
    by_cases hr : rest = []
    · subst hr
      have : i = 0 := by simpa using hi
      subst this
      simp [join, split_of_not_mem a ha]
    · rw [split_join_cons a rest hr, split_of_not_mem a ha]
      cases i with
      | zero => simp
      | succ i =>
        simp only [List.singleton_append, List.getElem?_cons_succ]
        apply ih i (by simpa using hi)
        intro m hm f hf
        exact h (m + 1) (by omega) f (by simpa using hf)

theorem startsWith_promoteTitle (t : Str) : startsWith (promoteTitle t) '#' = true := by
  unfold promoteTitle
  split_ifs with h
  · rfl
  · simpa using h

theorem promoteTitle_eq (t : Str) :
    promoteTitle t = if startsWith t '#' = true then t else '#' :: ' ' :: t := by
  unfold promoteTitle
  cases startsWith t '#' <;> rfl

theorem promoteTitle_of_startsWith (t : Str) (h : startsWith t '#' = true) :
    promoteTitle t = t := by
  simp [promoteTitle, h]

theorem promoteTitle_ne_nil (t : Str) (h : t ≠ []) : promoteTitle t ≠ [] := by
  unfold promoteTitle
  split_ifs
  · simp
  · exact h

theorem hash_prefix_of_append_newline (u v : Str) (h : ['#', ' '] <+: u ++ '\n' :: v) :
    ['#', ' '] <+: u := by
  obtain ⟨w, hw⟩ := h
  cases u with
  | nil =>
    simp only [List.nil_append, List.cons_append, List.cons.injEq] at hw
    exact absurd hw.1 (by decide)
  | cons c u =>
    cases u with
    | nil =>
      simp only [List.cons_append, List.nil_append, List.cons.injEq] at hw
      exact absurd hw.2.1 (by decide)
    | cons d u =>
      simp only [List.cons_append, List.cons.injEq, List.nil_append] at hw
      obtain ⟨rfl, rfl, -⟩ := hw
      exact ⟨u, rfl⟩

theorem hash_prefix_of_join (x : Str) (ps : List Str) (h : ['#', ' '] <+: join (x :: ps)) :
    ['#', ' '] <+: x := by
  cases ps with
  | nil => simpa [join] using h
  | cons b r =>
    rw [join_cons_cons] at h
    exact hash_prefix_of_append_newline _ _ h

/-- A table fragment starts with `# ` only if the line it is made from does. -/
theorem fixTable_hash_start (y : Str) (hn : '\n' ∉ y)
    (hy : ∀ c, y.head? = some c → isWhiteSpace c = false)
    (h : ['#', ' '] <+: fixTable y) : ['#', ' '] <+: y := by
  obtain ⟨p0, ps, hsplit, hinv⟩ := replaceRowBreaks_pieces y hn
  rw [fixTable_eq y p0 ps hsplit] at h
  have hx := hash_prefix_of_join _ _ h
  rcases splitCaption_cases p0 with hc | ⟨a, b, hp0, hane, -, hcap⟩
  · rw [hc] at hx
    exact hx.trans hinv.1
  · rw [hcap, List.append_assoc] at hx
    have hta := hash_prefix_of_append_newline _ _ hx
    have hahead : ∀ c, a.head? = some c → isWhiteSpace c = false := by
      intro c hc
      apply hy c
      have hp0ne : p0 ≠ [] := by rw [hp0]; simp [hane]
      rw [← head?_eq_of_isPrefix p0 y hinv.1 hp0ne, hp0]
      cases a with
      | nil => exact absurd rfl hane
      | cons d ds => simpa using hc
    have h1 := (trim_prefix_of_head a hahead).1
    have h2 : a <+: p0 := ⟨'|' :: b, hp0.symm⟩
    exact (hta.trans h1).trans (h2.trans hinv.1)

/-- The body transforms give a fragment starting with `# ` only to a line that already
starts with `# `. -/
theorem processBody_hash_start (t : Str) (hn : '\n' ∉ t) (ht : Clean t)
    (h : ['#', ' '] <+: processBody t) : ['#', ' '] <+: t := by
  have hfix : ['#', ' '] <+: fixHeader t → ['#', ' '] <+: t := by
    intro hf
    cases hm : headerMatch t with
    | none => rwa [fixHeader_of_none t hm] at hf
    | some g =>
      obtain ⟨major, minor, title⟩ := g
      rw [fixHeader_of_some t major minor title hm] at hf
      obtain ⟨w, hw⟩ := hf
      exfalso
      split_ifs at hw <;>
        (simp only [List.cons_append, List.cons.injEq, List.nil_append] at hw
         exact absurd hw.2.1 (by decide))
  cases htab : isTableFragment t with
  | true =>
    rw [processBody_of_table t htab] at h
    exact hfix (fixTable_hash_start _ (fixHeader_not_mem_newline t hn) (fixHeader_clean t ht).1 h)
  | false =>
    rw [processBody_of_not_table t htab] at h
    exact hfix h

/-- C2: when the first `k` lines of the input trim to the empty string and line `k` trims to
a non-empty `t`, the first `k` lines of the output are empty, line `k` of the output is `t`
itself when `t` starts with `#` and `# ` followed by `t` otherwise, whatever else `t` matches,
and the fragment of a later line starts with `# ` only if the trimmed line already does. -/
theorem title_promotion (s : Str) (k : Nat)
    (hblank : ∀ i, i < k → trim ((split s).getD i []) = [])
    (hne : trim ((split s).getD k []) ≠ []) :
    (∀ i, i < k → (split (preprocessMarkdown (.string s)))[i]? = some []) ∧
      (split (preprocessMarkdown (.string s)))[k]? =
        some (if startsWith (trim ((split s).getD k [])) '#' = true
          then trim ((split s).getD k [])
          else '#' :: ' ' :: trim ((split s).getD k [])) ∧
      ∀ j, k < j → j < (split s).length →
        ∃ frag, (processLines false (split s))[j]? = some frag ∧
          (['#', ' '] <+: frag → ['#', ' '] <+: trim ((split s).getD j [])) := by
  have hk : k < (split s).length := by
    by_contra hn
    rw [List.getD_eq_default _ _ (not_lt.mp hn)] at hne
    exact hne rfl
  have hlen := processLines_length false (split s)
  have hline : ∀ j, j < (split s).length → '\n' ∉ trim ((split s).getD j []) := by
    intro j hj
    apply not_mem_trim_newline
    rw [List.getD_eq_getElem _ _ hj]
    exact not_mem_of_mem_split s _ (List.getElem_mem _)
  have hfragk := fragment_title (split s) k hblank hne
  have hfrag : ∀ i, i < k → (processLines false (split s))[i]? = some [] := fun i hi =>
    fragment_blank (split s) i (lt_trans hi hk) (hblank i hi)
  have hnl : ∀ m, m ≤ k → ∀ f, (processLines false (split s))[m]? = some f → '\n' ∉ f := by
    intro m hm f hf
    rcases Nat.lt_or_eq_of_le hm with hlt | heq
    · rw [hfrag m hlt] at hf
      simp only [Option.some.injEq] at hf
      rw [← hf]; simp
    · subst heq
      rw [hfragk] at hf
      simp only [Option.some.injEq] at hf
      rw [← hf]
      exact promoteTitle_not_mem_newline _ (hline m hk)
  rw [preprocessMarkdown_string]
  refine ⟨?_, ?_, ?_⟩
  · intro i hi
    rw [split_join_getElem? _ i (by omega) (fun m hm => hnl m (by omega)), hfrag i hi]
  · rw [split_join_getElem? _ k (by omega) hnl, hfragk, promoteTitle_eq]
  · intro j hkj hj
    refine ⟨_, fragment_after_title (split s) j hj ⟨k, hkj, hne⟩, ?_⟩
    exact processBody_hash_start _ (hline j hj) (trim_clean _)

/-! ## Running the engine on its own output -/

theorem lines_blank_or_title (lines : List Str) :
    (∀ l ∈ lines, trim l = []) ∨
      ∃ pre l post, lines = pre ++ l :: post ∧ (∀ x ∈ pre, trim x = []) ∧ trim l ≠ [] := by
  induction lines with
  | nil => left; simp
  | cons a rest ih =>
    by_cases ha : trim a = []
    · rcases ih with h | ⟨pre, l, post, hl, hpre, hne⟩
      · left
        intro l hl
        rcases List.mem_cons.mp hl with rfl | hl
        · exact ha
        · exact h l hl
      · right
        refine ⟨a :: pre, l, post, by simp [hl], ?_, hne⟩
        intro x hx
        rcases List.mem_cons.mp hx with rfl | hx
        · exact ha
        · exact hpre x hx
    · right
      exact ⟨[], a, rest, rfl, by simp, ha⟩

theorem processLines_blank_lines (pre rest : List Str) (h : ∀ x ∈ pre, trim x = []) :
    processLines false (pre ++ rest) =
      List.replicate pre.length [] ++ processLines false rest := by
  induction pre with
  | nil => simp
  | cons a pre ih =>
    have ha : trim a = [] := h a (by simp)
    have h1 : (processLine false a).1 = false := by simp [processLine_fst, ha]
    have h2 : (processLine false a).2 = [] := processLine_blank false a ha
    have e : processLines false (a :: (pre ++ rest)) = [] :: processLines false (pre ++ rest) := by
      rw [processLines, h1, h2]
    rw [List.cons_append, e, ih (fun x hx => h x (List.mem_cons_of_mem _ hx))]
    rfl

theorem processLines_cons_title (l : Str) (post : List Str) (h : trim l ≠ []) :
    processLines false (l :: post) = promoteTitle (trim l) :: processLines true post := by
  have h1 : (processLine false l).1 = true := by simp [processLine_fst, h]
  simp only [processLines, h1, processLine_title l h]

theorem split_join_blank_lines (k : Nat) (T : Str) (rest : List Str) (hT : '\n' ∉ T) :
    ∃ X, split (join (List.replicate k [] ++ T :: rest)) = List.replicate k [] ++ T :: X := by
  induction k with
  | zero =>
    by_cases hr : rest = []
    · subst hr
      exact ⟨[], by simp [join, split_of_not_mem T hT]⟩
    · refine ⟨split (join rest), ?_⟩
      simp only [List.replicate_zero, List.nil_append]
      rw [split_join_cons T rest hr, split_of_not_mem T hT]
      rfl
  | succ k ih =>
    obtain ⟨X, hX⟩ := ih
    refine ⟨X, ?_⟩
    rw [List.replicate_succ, List.cons_append, split_join_cons _ _ (by simp), hX]
    rfl

theorem find?_blank_lines (k : Nat) (T : Str) (X : List Str) (hT : T ≠ []) :
    (List.replicate k [] ++ T :: X).find? (fun l => !l.isEmpty) = some T := by
  induction k with
  | zero =>
    cases T with
    | nil => exact absurd rfl hT
    | cons c cs => simp [List.find?]
  | succ k ih =>
    rw [List.replicate_succ, List.cons_append, List.find?_cons]
    simpa using ih

theorem join_ne_nil_of_split (o : Str) (k : Nat) (T : Str) (X : List Str) (hT : T ≠ [])
    (h : split o = List.replicate k [] ++ T :: X) : o ≠ [] := by
  intro e
  subst e
  cases k with
  | zero =>
    simp only [split, List.replicate_zero, List.nil_append, List.cons.injEq] at h
    exact hT h.1.symm
  | succ k =>
    simp only [split, List.replicate_succ, List.cons_append, List.cons.injEq, true_and] at h
    have := congrArg List.length h
    simp at this
    omega

/-- C3: running `preprocessMarkdown` on its own output leaves the first non-empty line of the
output as it is; in particular no second heading marker is put in front of the title. -/
theorem idempotent_on_title (markdown : Markdown) :
    firstNonEmptyLine (preprocessMarkdown (.string (preprocessMarkdown markdown))) =
      firstNonEmptyLine (preprocessMarkdown markdown) := by
  cases markdown with
  | null => rfl
  | undefined => rfl
  | string s =>
    rcases lines_blank_or_title (split s) with hall | ⟨pre, l, post, hl, hpre, hne⟩
    · have hfr : processLines false (split s) = List.replicate (split s).length [] := by
        have := processLines_blank_lines (split s) [] hall
        simpa [processLines] using this
      have hrep : ∀ n, ∀ x ∈ List.replicate n ([] : Str), trim x = [] := by
        intro n x hx
        rw [(List.mem_replicate.mp hx).2]
        rfl
      have hne : List.replicate (split s).length ([] : Str) ≠ [] := by
        intro e
        have := congrArg List.length e
        simp only [List.length_replicate, List.length_nil] at this
        exact split_ne_nil s (List.length_eq_zero.mp this)
      have hsj : split (join (List.replicate (split s).length ([] : Str))) =
          List.replicate (split s).length [] := by
        apply split_join_of_not_mem _ hne
        intro f hf
        rw [(List.mem_replicate.mp hf).2]
        simp
      have hfix : preprocessMarkdown (.string (preprocessMarkdown (.string s))) =
          preprocessMarkdown (.string s) := by
        rw [preprocessMarkdown_string s, hfr, preprocessMarkdown_string, hsj]
        have := processLines_blank_lines (List.replicate (split s).length []) [] (hrep _)
        simp only [List.append_nil, processLines, List.length_replicate] at this
        rw [this]
      rw [hfix]
    · set T := promoteTitle (trim l) with hT
      have hln : '\n' ∉ l := by
        apply not_mem_of_mem_split s
        rw [hl]; simp
      have hTn : '\n' ∉ T := promoteTitle_not_mem_newline _ (not_mem_trim_newline l hln)
      have hTne : T ≠ [] := promoteTitle_ne_nil _ hne
      have hTclean : Clean T := promoteTitle_clean _ (trim_clean l) hne
      have hTtrim : trim T = T := trim_eq_self T hTclean
      have hTprom : promoteTitle (trim T) = T := by
        rw [hTtrim]
        exact promoteTitle_of_startsWith T (startsWith_promoteTitle _)
      have hfr : processLines false (split s) =
          List.replicate pre.length [] ++ T :: processLines true post := by
        rw [hl, processLines_blank_lines pre _ hpre, processLines_cons_title l post hne]
      obtain ⟨X, hX⟩ := split_join_blank_lines pre.length T (processLines true post) hTn
      have hrep : ∀ x ∈ List.replicate pre.length ([] : Str), trim x = [] := by
        intro x hx
        rw [(List.mem_replicate.mp hx).2]
        rfl
      have hout : split (preprocessMarkdown (.string s)) =
          List.replicate pre.length [] ++ T :: X := by
        rw [preprocessMarkdown_string, hfr, hX]
      have h2 : firstNonEmptyLine (preprocessMarkdown (.string s)) = some T := by
        unfold firstNonEmptyLine
        rw [hout]
        exact find?_blank_lines _ T X hTne
      have hTtr : trim T ≠ [] := by rw [hTtrim]; exact hTne
      have hfr2 : processLines false (split (preprocessMarkdown (.string s))) =
          List.replicate pre.length [] ++ T :: processLines true X := by
        rw [hout, processLines_blank_lines _ _ hrep, processLines_cons_title T X hTtr, hTprom]
        simp
      obtain ⟨Y, hY⟩ := split_join_blank_lines pre.length T (processLines true X) hTn
      have h1 : firstNonEmptyLine
          (preprocessMarkdown (.string (preprocessMarkdown (.string s)))) = some T := by
        unfold firstNonEmptyLine
        rw [preprocessMarkdown_string (preprocessMarkdown (.string s)), hfr2, hY]
        exact find?_blank_lines _ T Y hTne
      rw [h1, h2]

/-! ## The scenarios -/

set_option maxRecDepth 100000

/-- C2 (witness): in `numberedTitle` the two leading blank lines stay empty and the third line,
although it matches the numbered-heading pattern and holds a table, becomes the title. -/
theorem title_promotion_witness :
    (split (preprocessMarkdown (.string numberedTitle)))[0]? = some [] ∧
      (split (preprocessMarkdown (.string numberedTitle)))[2]? =
        some "# 1.0 Plan | --- |".toList :=
  ⟨(title_promotion numberedTitle 2 (by decide) (by decide)).1 0 (by decide),
    (title_promotion numberedTitle 2 (by decide) (by decide)).2.1⟩

/-- C4 (witness): the line `2.10 Scope` of `numberedTitle` becomes a third-level heading. -/
theorem heading_depth_law_witness :
    (processLines false (split numberedTitle))[4]? = some "### 2.10 Scope".toList :=
  (heading_depth_law numberedTitle 4 ['2'] ['1', '0'] "Scope".toList
    ⟨2, by decide, by decide⟩ (by decide) (by decide)).2.2

/-- C5 (witness): the line `Some text.` of `quarterlyReport` is pushed unchanged at its own
position. -/
theorem pass_through_law_witness :
    (processLines false (split quarterlyReport))[2]? = some "Some text.".toList :=
  (pass_through_law quarterlyReport 2 (by decide) (Or.inr ⟨0, by decide, by decide⟩)
    (by decide) (by decide)).2.2

/-- C6 (witness): the line `Table 1: Results | A | B | | :--- | :--- |` is pushed as the four
lines `Table 1: Results`, the empty line, `| A | B |` and `| :--- | :--- |`. -/
theorem table_caption_separation_witness :
    (processLines false (split resultsTable))[1]? =
        some "Table 1: Results\n\n| A | B |\n| :--- | :--- |".toList ∧
      split "Table 1: Results\n\n| A | B |\n| :--- | :--- |".toList =
        ["Table 1: Results".toList, [], "| A | B |".toList, "| :--- | :--- |".toList] :=
  ⟨(table_caption_separation resultsTable 1 ⟨0, by decide, by decide⟩
    (by decide) (by decide) (by decide)).2.2.1, by decide⟩

/-- C7 (counterexample): the output for `quarterlyReport` is not the text in which the rows
have lost their closing pipes. -/
theorem end_to_end_scenario_not_as_stated :
    preprocessMarkdown (.string quarterlyReport) ≠
      ("# Quarterly Report\n## 1.0 Overview\nSome text.\n### 1.1 Details\nCaption here\n\n" ++
        "| Col1 | Col2\n| :--- | :--- \n| v1 | v2").toList := by
  decide

/-- C7 (as amended): for `quarterlyReport` the output is the nine lines `# Quarterly Report`,
`## 1.0 Overview`, `Some text.`, `### 1.1 Details`, `Caption here`, the empty line,
`| Col1 | Col2 |`, `| :--- | :--- |` and `| v1 | v2`: a row break keeps both pipes. -/
theorem end_to_end_scenario :
    split (preprocessMarkdown (.string quarterlyReport)) =
      ["# Quarterly Report".toList, "## 1.0 Overview".toList, "Some text.".toList,
        "### 1.1 Details".toList, "Caption here".toList, [], "| Col1 | Col2 |".toList,
        "| :--- | :--- |".toList, "| v1 | v2".toList] ∧
      preprocessMarkdown (.string quarterlyReport) =
        ("# Quarterly Report\n## 1.0 Overview\nSome text.\n### 1.1 Details\nCaption here\n\n" ++
          "| Col1 | Col2 |\n| :--- | :--- |\n| v1 | v2").toList := by
  decide

/-- C8 (counterexample): the trimmed line `1.0 A | B | --- |` matches the numbered-heading
pattern and is treated as a table, and its fragment is both a heading and a split table. -/
theorem heading_and_table_overlap :
    trim headingWithTable = headingWithTable ∧
      headerMatch headingWithTable = some (['1'], ['0'], "A | B | --- |".toList) ∧
      isTableFragment headingWithTable = true ∧
      processBody headingWithTable = "## 1.0 A\n\n| B | --- |".toList := by
  decide

/-- C8 (witness): the line `1.0 A | B | --- |` is rewritten as a heading and then split. -/
theorem heading_then_table_witness :
    processBody headingWithTable = fixTable (fixHeader headingWithTable) ∧
      fixHeader headingWithTable = "## 1.0 A | B | --- |".toList :=
  ⟨(heading_then_table headingWithTable ['1'] ['0'] "A | B | --- |".toList (by decide)).2.2,
    by decide⟩

/-- C9 (counterexample): `a | | | --- |` is treated as a table and the last line of its
fragment, `| | --- |`, still holds a pipe followed by a space and another pipe. -/
theorem row_break_survives :
    isTableFragment overlappingRows = true ∧
      split (fixTable overlappingRows) =
        ["a".toList, [], "|".toList, "| | --- |".toList] ∧
      containsRowBreak "| | --- |".toList = true := by
  decide

/-- C9 (witness): in the fragment of `a | | | --- |` the line `| | --- |` has no match of the
pattern after its first character. -/
theorem row_breaks_only_at_line_start_witness :
    "| | --- |".toList ∈ split (fixTable overlappingRows) ∧
      rowBreakAt " | --- |".toList = false :=
  ⟨by decide,
    (row_breaks_only_at_line_start overlappingRows (by decide)).2 "| | --- |".toList
      (by decide) ['|'] " | --- |".toList rfl (by decide)⟩

/-- C10 (witness): the title line of the output for `numberedTitle` has no outer white
space, although the input line starts with a space. -/
theorem output_lines_clean_witness : Clean "# 1.0 Plan | --- |".toList :=
  output_lines_clean (.string numberedTitle) "# 1.0 Plan | --- |".toList (by decide)

end NotebookLM
